import Mathlib

/-!
# Verification of the vllm-deps-autofiler version-line parsing engine

Shallow embedding of the parsing / diff-reconciliation core of the
`vllm-deps-autofiler` repository:

* `parse_package_line` from `src/parse_diff.py` (lines 115-152), embedded as
  `parse_package_line_diff`;
* `parse_package_line` from `src/generate_component_versions.py`
  (lines 84-142), embedded as `parse_package_line_gen`;
* `extract_changes_from_diff` from `src/parse_diff.py` (lines 154-198);
* the classification fragments of `generate_ticket_body` (`src/parse_diff.py`,
  lines 200-213) and `preview_tickets` (`src/jira_generator.py`, lines 48-54);
* `safe_extract` and `extract_all_versions` / the sorting step of
  `format_output` from `src/generate_component_versions.py`.

Strings are modelled as `List Char` over ASCII (the manifests handled by the
tool are ASCII; Python's `re` character classes `\d`, `\w`, `\s` are modelled
by their ASCII parts).  Each Python regular expression used by the source is
embedded as a hand-written matcher with the same leftmost / greedy /
backtracking behaviour; the regex it implements is quoted in its doc comment.
-/

namespace Autofiler

/-! ## Character classes (ASCII fragments of Python's `\s`, `\d`, `\w`, ...) -/

/-- Python `str.strip()` / regex `\s` whitespace (ASCII part):
space, tab, newline, carriage return, vertical tab, form feed. -/
def isSpace (c : Char) : Bool :=
  c = ' ' || c = '\t' || c = '\n' || c = '\r' || c = '\x0b' || c = '\x0c'

/-- Regex `\d` (ASCII). -/
def isDigitC (c : Char) : Bool := '0' ≤ c && c ≤ '9'

/-- ASCII letter. -/
def isAlphaC (c : Char) : Bool := ('a' ≤ c && c ≤ 'z') || ('A' ≤ c && c ≤ 'Z')

/-- Regex `\w` (ASCII): letters, digits, underscore. -/
def isWordC (c : Char) : Bool := isAlphaC c || isDigitC c || c = '_'

/-- The package-name class `[a-zA-Z0-9_-]` of the standard-form regex. -/
def isNameC (c : Char) : Bool := isAlphaC c || isDigitC c || c = '_' || c = '-'

/-- The comparison-operator class `[><=!]`. -/
def isOpC (c : Char) : Bool := c = '>' || c = '<' || c = '=' || c = '!'

/-- The constraint-value class `[\d\.\w\+]`. -/
def isValC (c : Char) : Bool := isDigitC c || c = '.' || isWordC c || c = '+'

/-- The lowercase-hex class `[0-9a-f]` of the commit-hash regex. -/
def isHexL (c : Char) : Bool := isDigitC c || ('a' ≤ c && c ≤ 'f')

/-- The class `[\d\.]` of the upper-bound check regex. -/
def isDigitDotC (c : Char) : Bool := isDigitC c || c = '.'

/-! ## List utilities -/

/-- Greedy match of a character class: `spanP p l = (l.takeWhile p, l.dropWhile p)`.
This is exactly how a regex engine consumes `C*` / `C+` for a character
class `C` that is disjoint from what follows (no backtracking can help). -/
def spanP (p : Char → Bool) : List Char → List Char × List Char
  | [] => ([], [])
  | c :: t => if p c then ((c :: (spanP p t).1), (spanP p t).2) else ([], c :: t)

/-- Python `str.strip()` (ASCII whitespace). -/
def stripC (l : List Char) : List Char :=
  ((l.dropWhile isSpace).reverse.dropWhile isSpace).reverse

/-- Python `pat in s` (contiguous substring test). -/
def containsStr (pat : List Char) : List Char → Bool
  | [] => pat.isEmpty
  | c :: rest => pat.isPrefixOf (c :: rest) || containsStr pat rest

/-! ## Embedded regular expressions

Each `re...At` function matches the given pattern anchored at the start of the
input (Python `re.match`) and returns the matched text together with the rest;
each `re...Search` function scans for the leftmost start position at which the
anchored match succeeds (Python `re.search`). -/

/-- Anchored match of `\d+\.\d+(?:\.\d+)?(?:\+\w+|\.dev\d+)?` (the "main
version number" group used on constraint text in both parser copies).
All trailing groups are nullable, so the greedy first path is the match. -/
def reVer2At (l : List Char) : Option (List Char × List Char) :=
  let s1 := spanP isDigitC l
  if s1.1.isEmpty then none else
  match s1.2 with
  | '.' :: r1 =>
    let s2 := spanP isDigitC r1
    if s2.1.isEmpty then none else
    let s3 :=
      match s2.2 with
      | '.' :: r =>
        let d3 := spanP isDigitC r
        if d3.1.isEmpty then (([] : List Char), s2.2) else ('.' :: d3.1, d3.2)
      | _ => ([], s2.2)
    let s4 :=
      match s3.2 with
      | '+' :: r =>
        let w := spanP isWordC r
        if w.1.isEmpty then (([] : List Char), s3.2) else ('+' :: w.1, w.2)
      | '.' :: 'd' :: 'e' :: 'v' :: r =>
        let dd := spanP isDigitC r
        if dd.1.isEmpty then (([] : List Char), s3.2)
        else ('.' :: 'd' :: 'e' :: 'v' :: dd.1, dd.2)
      | _ => ([], s3.2)
    some (s1.1 ++ '.' :: (s2.1 ++ s3.1 ++ s4.1), s4.2)
  | _ => none

/-- `re.search` of `(\d+\.\d+(?:\.\d+)?(?:\+\w+|\.dev\d+)?)`: leftmost
start position wins. -/
def reVer2Search : List Char → Option (List Char)
  | [] => none
  | c :: rest =>
    match reVer2At (c :: rest) with
    | some (m, _) => some m
    | none => reVer2Search rest

/-- Anchored match of `\d+\.\d+\.\d+(?:\.dev\d+)?` (the semantic-version
pattern searched on URL-pinned lines). -/
def reVer3At (l : List Char) : Option (List Char × List Char) :=
  let s1 := spanP isDigitC l
  if s1.1.isEmpty then none else
  match s1.2 with
  | '.' :: r1 =>
    let s2 := spanP isDigitC r1
    if s2.1.isEmpty then none else
    match s2.2 with
    | '.' :: r2 =>
      let s3 := spanP isDigitC r2
      if s3.1.isEmpty then none else
      let s4 :=
        match s3.2 with
        | '.' :: 'd' :: 'e' :: 'v' :: r =>
          let dd := spanP isDigitC r
          if dd.1.isEmpty then (([] : List Char), s3.2)
          else ('.' :: 'd' :: 'e' :: 'v' :: dd.1, dd.2)
        | _ => ([], s3.2)
      some (s1.1 ++ '.' :: (s2.1 ++ '.' :: (s3.1 ++ s4.1)), s4.2)
    | _ => none
  | _ => none

/-- `re.search` of `(\d+\.\d+\.\d+(?:\.dev\d+)?)`. -/
def reVer3Search : List Char → Option (List Char)
  | [] => none
  | c :: rest =>
    match reVer3At (c :: rest) with
    | some (m, _) => some m
    | none => reVer3Search rest

/-- `re.search` of `@([0-9a-f]{40})`: leftmost `@` followed by at least 40
lowercase-hex characters; the group is exactly those 40 characters. -/
def reHex40Search : List Char → Option (List Char)
  | [] => none
  | c :: rest =>
    if c = '@' && decide (40 ≤ rest.length) && (rest.take 40).all isHexL then
      some (rest.take 40)
    else reHex40Search rest

/-- Tail `\s*(ver2)` of the lower-bound search, applied after `>=?`. -/
def reLowerTail (r : List Char) : Option (List Char) :=
  let sp := spanP isSpace r
  match reVer2At sp.2 with
  | some (m, _) => some m
  | none => none

/-- `re.search` of `>=?\s*(\d+\.\d+(?:\.\d+)?(?:\+\w+|\.dev\d+)?)` used by
`generate_component_versions.parse_package_line` to prefer lower bounds.
The `=?` is greedy; if the tail fails after consuming `=`, the engine retries
without it (that retry can never succeed, but is kept for faithfulness). -/
def reLowerSearch : List Char → Option (List Char)
  | [] => none
  | c :: rest =>
    if c = '>' then
      match
        (match rest with
         | '=' :: r2 => (reLowerTail r2).or (reLowerTail rest)
         | _ => reLowerTail rest) with
      | some m => some m
      | none => reLowerSearch rest
    else reLowerSearch rest

/-- Anchored match head of `==\s*(ver2)`. -/
def reExactAt (l : List Char) : Option (List Char) :=
  match l with
  | '=' :: '=' :: rest =>
    let sp := spanP isSpace rest
    match reVer2At sp.2 with
    | some (m, _) => some m
    | none => none
  | _ => none

/-- `re.search` of `==\s*(\d+\.\d+(?:\.\d+)?(?:\+\w+|\.dev\d+)?)`. -/
def reExactSearch : List Char → Option (List Char)
  | [] => none
  | c :: rest =>
    match reExactAt (c :: rest) with
    | some m => some m
    | none => reExactSearch rest

/-- Tail `\s*[\d\.]+` of the upper-bound check, applied after `<` / `<=`. -/
def reUpperTail (r : List Char) : Bool :=
  let sp := spanP isSpace r
  !(spanP isDigitDotC sp.2).1.isEmpty

/-- `re.match` of `^\s*<[=]?\s*[\d\.]+` (the "only an upper bound" test in
`generate_component_versions.parse_package_line`).  As with `>=?`, the
greedy `[=]?` falls back to the empty alternative on failure. -/
def reUpperMatch (l : List Char) : Bool :=
  match l.dropWhile isSpace with
  | '<' :: r1 =>
    (match r1 with
     | '=' :: r2 => reUpperTail r2 || reUpperTail r1
     | _ => reUpperTail r1)
  | _ => false

/-- Optional extras group `(?:\[[^\]]+\])?`: consume `[` + one-or-more
non-`]` characters + `]`, or fail (in which case the caller skips it).
`[^\]]+` cannot cross a `]`, so greedy+backtrack equals "up to first `]`". -/
def reExtrasAt (r : List Char) : Option (List Char) :=
  match r with
  | '[' :: t =>
    let inner := spanP (fun c => !(c = ']')) t
    if inner.1.isEmpty then none
    else
      match inner.2 with
      | ']' :: rest => some rest
      | _ => none
  | _ => none

/-- Tail `\s*@` of the URL-form name regex. -/
def reTailAt (r : List Char) : Bool :=
  match (spanP isSpace r).2 with
  | '@' :: _ => true
  | _ => false

/-- Continuation `(?:\[[^\]]+\])?\s*@` after a candidate name group.
The optional extras group is greedy: try with it, then without. -/
def afterNameMatches (r : List Char) : Bool :=
  (match reExtrasAt r with
   | some rest => reTailAt rest
   | none => false) || reTailAt r

/-- Backtracking over the greedy group `([^\s\[]+)`: try the longest
candidate first (`k = run.length`), then give back one character at a time. -/
def nameAtAuxK (run lrest : List Char) : Nat → Option (List Char)
  | 0 => none
  | k + 1 =>
    if afterNameMatches (run.drop (k + 1) ++ lrest) then some (run.take (k + 1))
    else nameAtAuxK run lrest k

/-- `re.match` of `^([^\s\[]+)(?:\[[^\]]+\])?\s*@` (URL-pinned form name),
returning the captured name group. -/
def reNameAtMatch (l : List Char) : Option (List Char) :=
  let s := spanP (fun c => !isSpace c && !(c = '[')) l
  if s.1.isEmpty then none
  else nameAtAuxK s.1 s.2 s.1.length

/-- One constraint clause `[><=!]+\s*[\d\.\w\+]+`; returns the consumed text
and the rest.  The three classes are pairwise disjoint, so greedy consumption
is exact; a missing operator or missing value fails the clause outright. -/
def reClause (l : List Char) : Option (List Char × List Char) :=
  let ops := spanP isOpC l
  if ops.1.isEmpty then none else
  let sp := spanP isSpace ops.2
  let vals := spanP isValC sp.2
  if vals.1.isEmpty then none else
  some (ops.1 ++ (sp.1 ++ vals.1), vals.2)

/-- The trailing repetition `(?:\s*,\s*[><=!]+\s*[\d\.\w\+]+)*`: consume as
many further clauses as possible, returning the consumed text.  A failed
iteration consumes nothing.  `fuel` bounds the recursion; each iteration
consumes at least three characters, so `fuel = input length` never runs out. -/
def reMoreClauses : Nat → List Char → List Char
  | 0, _ => []
  | fuel + 1, l =>
    let sp1 := spanP isSpace l
    match sp1.2 with
    | ',' :: r2 =>
      let sp2 := spanP isSpace r2
      match reClause sp2.2 with
      | some (cl, rest) => sp1.1 ++ ',' :: (sp2.1 ++ cl) ++ reMoreClauses fuel rest
      | none => []
    | _ => []

/-- `re.match` of the standard-form regex
`^([a-zA-Z0-9_-]+)(?:\[[^\]]+\])?\s*([><=!]+\s*[\d\.\w\+]+(?:\s*,\s*[><=!]+\s*[\d\.\w\+]+)*)?`:
returns the name group and the (optional) constraint group.  Everything after
the name group is nullable, so the greedy name run never backtracks; the
constraint group is `none` exactly when no complete first clause follows. -/
def reStdMatch (l : List Char) : Option (List Char × Option (List Char)) :=
  let s := spanP isNameC l
  if s.1.isEmpty then none else
  let r1 :=
    match reExtrasAt s.2 with
    | some rest => rest
    | none => s.2
  let sp := spanP isSpace r1
  match reClause sp.2 with
  | some (cl, rest) => some (s.1, some (cl ++ reMoreClauses rest.length rest))
  | none => some (s.1, none)

/-! ## Constraint resolution (the `if version_spec:` blocks) -/

/-- The version resolution of `parse_diff.parse_package_line` (lines 143-146):
the first version number found anywhere in the constraint text, else the
stripped constraint text. -/
def resolve_constraint_diff (version_spec : List Char) : List Char :=
  match reVer2Search version_spec with
  | some version => version
  | none => stripC version_spec

/-- The version resolution of
`generate_component_versions.parse_package_line` (lines 119-136): a `>=`
value first, else a `==` value, else the verbatim (stripped) constraint text
when it starts with an upper bound, else the first version number found
anywhere, else the stripped constraint text. -/
def resolve_constraint_gen (version_spec : List Char) : List Char :=
  match reLowerSearch version_spec with
  | some version => version
  | none =>
    match reExactSearch version_spec with
    | some version => version
    | none =>
      if reUpperMatch (stripC version_spec) then stripC version_spec
      else
        match reVer2Search version_spec with
        | some version => version
        | none => stripC version_spec

/-! ## The two Line Parser implementations -/

/-- `parse_package_line` from `src/parse_diff.py` (lines 115-152).
Returns `none` for the Python `(None, None)` result, `some (name, version)`
otherwise.  Note: this copy rejects only blank and `#`-prefixed lines, has no
commit-hash handling in the URL branch, and resolves a constraint to the
first version number found anywhere in the constraint text. -/
def parse_package_line_diff (line : List Char) : Option (List Char × List Char) :=
  let l := stripC line
  if l.isEmpty || l.head? = some '#' then none
  else
    let urlCase : Option (List Char × List Char) :=
      if l.elem '@' && containsStr "http".toList l then
        match reNameAtMatch l with
        | some pkg_name =>
          some (pkg_name, (reVer3Search l).getD "unknown".toList)
        | none => none
      else none
    match urlCase with
    | some r => some r
    | none =>
      match reStdMatch l with
      | some (pkg_name, spec?) =>
        let version :=
          match spec? with
          | some version_spec => resolve_constraint_diff version_spec
          | none => "latest".toList
        some (pkg_name, version)
      | none => none

/-- `parse_package_line` from `src/generate_component_versions.py`
(lines 84-142).  Additionally rejects `--`-prefixed pip options, shortens a
40-hex commit pin after `@` to its first 8 characters, and resolves a
constraint by the precedence: `>=` value, then `==` value, then verbatim
upper-bound-only text, then first version number, then stripped raw text. -/
def parse_package_line_gen (line : List Char) : Option (List Char × List Char) :=
  let l := stripC line
  if l.isEmpty || l.head? = some '#' || "--".toList.isPrefixOf l then none
  else
    let urlCase : Option (List Char × List Char) :=
      if l.elem '@' && containsStr "http".toList l then
        match reNameAtMatch l with
        | some pkg_name =>
          match reHex40Search l with
          | some h => some (pkg_name, h.take 8)
          | none =>
            some (pkg_name, (reVer3Search l).getD "unknown".toList)
        | none => none
      else none
    match urlCase with
    | some r => some r
    | none =>
      match reStdMatch l with
      | some (pkg_name, spec?) =>
        let version :=
          match spec? with
          | some version_spec => resolve_constraint_gen version_spec
          | none => "latest".toList
        some (pkg_name, version)
      | none => none

/-! ## Diff Reconciler (`extract_changes_from_diff`, `src/parse_diff.py` 154-198)

The per-package accumulator mirrors the Python dict
`{'old_version': ..., 'new_version': ..., 'files': set()}`.  The `files`
field is a Python `set`; it is modelled as a duplicate-free insertion-ordered
list (`insertFile`), which preserves the set semantics.  `current_file`
starts as Python `None` and may be added to a file set before any diff
header has been seen, hence `Option` elements. -/

structure ChangeInfo where
  old_version : Option (List Char)
  new_version : Option (List Char)
  files : List (Option (List Char))
deriving DecidableEq, Repr

structure DiffState where
  current_file : Option (List Char)
  changes : List (List Char × ChangeInfo)
deriving DecidableEq, Repr

/-- First-match association-list lookup (Python `pkg_name in changes` /
`changes[pkg_name]`; dict keys are unique, which the scan preserves). -/
def lookupPkg : List (List Char × ChangeInfo) → List Char → Option ChangeInfo
  | [], _ => none
  | (k, i) :: rest, n => if k = n then some i else lookupPkg rest n

/-- Python `set.add`: no-op when already present, else append. -/
def insertFile (cf : Option (List Char)) (fs : List (Option (List Char))) :
    List (Option (List Char)) :=
  if cf ∈ fs then fs else fs ++ [cf]

/-- `if pkg_name not in changes: changes[pkg_name] = {...}` -/
def ensurePkg (changes : List (List Char × ChangeInfo)) (n : List Char) :
    List (List Char × ChangeInfo) :=
  if (lookupPkg changes n).isSome then changes
  else changes ++ [(n, ⟨none, none, []⟩)]

/-- In-place field update of the entry for `n` (dict value mutation). -/
def updatePkg (changes : List (List Char × ChangeInfo)) (n : List Char)
    (f : ChangeInfo → ChangeInfo) : List (List Char × ChangeInfo) :=
  changes.map (fun e => if e.1 = n then (e.1, f e.2) else e)

/-- `changes[pkg_name]['old_version'] = version; ...['files'].add(current_file)` -/
def setOldVersion (changes : List (List Char × ChangeInfo)) (n v : List Char)
    (cf : Option (List Char)) : List (List Char × ChangeInfo) :=
  updatePkg (ensurePkg changes n) n
    (fun i => { i with old_version := some v, files := insertFile cf i.files })

/-- `changes[pkg_name]['new_version'] = version; ...['files'].add(current_file)` -/
def setNewVersion (changes : List (List Char × ChangeInfo)) (n v : List Char)
    (cf : Option (List Char)) : List (List Char × ChangeInfo) :=
  updatePkg (ensurePkg changes n) n
    (fun i => { i with new_version := some v, files := insertFile cf i.files })

/-- `file_path.split('/')[-1].split('\t')[0] if '/' in file_path else
file_path.split('\t')[0]` applied to `line[4:].strip()`. -/
def headerFileName (line : List Char) : List Char :=
  let fp := stripC (line.drop 4)
  let base := if '/' ∈ fp then ((fp.reverse.takeWhile (fun c => !(c = '/'))).reverse) else fp
  base.takeWhile (fun c => !(c = '\t'))

/-- One iteration of the `for line in lines` scan (lines 161-186). -/
def processDiffLine (st : DiffState) (line : List Char) : DiffState :=
  if "--- ".toList.isPrefixOf line then
    { st with current_file := some (headerFileName line) }
  else if "+++ ".toList.isPrefixOf line then
    { st with current_file := some (headerFileName line) }
  else if line.head? = some '-' && !("---".toList.isPrefixOf line) then
    match parse_package_line_diff (line.drop 1) with
    | some (pkg_name, version) =>
      if pkg_name = [] ∨ pkg_name = "via".toList then st
      else { st with changes := setOldVersion st.changes pkg_name version st.current_file }
    | none => st
  else if line.head? = some '+' && !("+++".toList.isPrefixOf line) then
    match parse_package_line_diff (line.drop 1) with
    | some (pkg_name, version) =>
      if pkg_name = [] ∨ pkg_name = "via".toList then st
      else { st with changes := setNewVersion st.changes pkg_name version st.current_file }
    | none => st
  else st

/-- Python `str.split('\n')` (keeps empty segments). -/
def splitNL : List Char → List (List Char)
  | [] => [[]]
  | '\n' :: rest => [] :: splitNL rest
  | c :: rest =>
    match splitNL rest with
    | s :: ss => (c :: s) :: ss
    | [] => [[c]]

/-- The raw accumulated change map after the full line scan, before the
"no version change" filter. -/
def rawChanges (diff_content : List Char) : List (List Char × ChangeInfo) :=
  ((splitNL diff_content).foldl processDiffLine ⟨none, []⟩).changes

/-- The retention test of lines 192-193:
`old_version != new_version and (old_version is not None or new_version is not None)`. -/
def keepChange (e : List Char × ChangeInfo) : Bool :=
  decide (e.2.old_version ≠ e.2.new_version) &&
    (e.2.old_version.isSome || e.2.new_version.isSome)

/-- `extract_changes_from_diff` (lines 154-198).  The final
`change_info['files'] = list(change_info['files'])` converts the set to a
list; with the list-with-set-semantics model this is the identity. -/
def extract_changes_from_diff (diff_content : List Char) :
    List (List Char × ChangeInfo) :=
  (rawChanges diff_content).filter keepChange

/-! ## Ticket Drafter classification

`generate_ticket_body` (`src/parse_diff.py` 200-213) computes `change_type`
by `if old_version is None / elif new_version is None / else`; the embedded
fragment is that classification.  `preview_tickets`
(`src/jira_generator.py` 48-54) computes the preview `change_type` the same
way with the labels NEW / REMOVE / UPDATE. -/

/-- The `change_type` selected by `generate_ticket_body`. -/
def generate_ticket_change_type (old_version new_version : Option (List Char)) :
    List Char :=
  if old_version = none then "addition".toList
  else if new_version = none then "removal".toList
  else "update".toList

/-- The `change_type` column computed inside `preview_tickets`. -/
def preview_change_type (old_version new_version : Option (List Char)) :
    List Char :=
  if old_version = none then "NEW".toList
  else if new_version = none then "REMOVE".toList
  else "UPDATE".toList

/-! ## `safe_extract` and the component catalogue

`safe_extract(extraction_func, *args, default="[tbd]")` calls the extractor
inside `try/except`.  The call's outcome is reified as
`Except PyExc (Option α)`: `.error e` for a raised exception, `.ok none` for
a `None` return, `.ok (some a)` for a non-`None` return.  (The Python also
prints a warning to stderr on exception; side effects are not modelled.) -/

/-- An opaque Python exception value. -/
inductive PyExc where
  | exc : List Char → PyExc
deriving DecidableEq

/-- `safe_extract` (`src/generate_component_versions.py` 35-42):
`return result if result is not None else default`, with any raised
exception converted to `default`. -/
def safe_extract {α : Type} (result : Except PyExc (Option α)) (default : α) : α :=
  match result with
  | .ok (some r) => r
  | .ok none => default
  | .error _ => default

/-- Python `dict.get(key, fallback)` over an association list (dict keys are
unique in the extractors' returned dicts). -/
def dictGet (d : List (String × String)) (k fallback : String) : String :=
  match d.find? (fun e => e.1 = k) with
  | some e => e.2
  | none => fallback

/-- The outcomes of the individual extractor calls made by
`extract_all_versions` for a given repository tree.  Each field reifies one
`safe_extract(extract_..., repo_path, ...)` call site; the filesystem-reading
extractors themselves are external collaborators (they read the cloned vLLM
tree, which is outside this repository). -/
structure RepoExtractionOutcomes where
  python_version : Except PyExc (Option String)
  gcc_version : Except PyExc (Option String)
  cuda_version : Except PyExc (Option String)
  rocm_version : Except PyExc (Option String)
  torch_versions : Except PyExc (Option (List (String × String)))
  aiter_version : Except PyExc (Option String)
  common_packages : Except PyExc (Option (List (String × String)))
  accelerator_packages : Except PyExc (Option (List (String × String)))
  flash_attn_version : Except PyExc (Option String)
  nccl_version : Except PyExc (Option String)
  ep_kernel_versions : Except PyExc (Option (List (String × String)))

/-- `extract_all_versions` (`src/generate_component_versions.py` 355-454):
the fixed catalogue of `(row_num, component_name, version)` entries,
rows 16-43, built by successive `versions.append(...)` calls. -/
def extract_all_versions (o : RepoExtractionOutcomes) : List (Nat × String × String) :=
  let python_ver := safe_extract o.python_version "[tbd]"
  let gcc_ver := safe_extract o.gcc_version "[tbd]"
  let cuda_ver := safe_extract o.cuda_version "[tbd]"
  let rocm_ver := safe_extract o.rocm_version "[tbd]"
  let torch_vers := safe_extract o.torch_versions []
  let aiter_ver := safe_extract o.aiter_version "[tbd]"
  let common_pkgs := safe_extract o.common_packages []
  let accel_pkgs := safe_extract o.accelerator_packages []
  let flash_attn_ver := safe_extract o.flash_attn_version "[tbd]"
  let nccl_ver := safe_extract o.nccl_version "[tbd]"
  let ep_vers := safe_extract o.ep_kernel_versions []
  [(16, "python", python_ver),
   (17, "RHEL", "[tbd]"),
   (18, "gcc [specific to Spyre]", gcc_ver),
   (19, "CUDA", cuda_ver),
   (20, "ROCM", rocm_ver),
   (21, "Spyre x86 plugin", "[Spyre]"),
   (22, "Spyre s390x plugin", "[Spyre]"),
   (23, "Spyre ppc64le plugin", "[Spyre]"),
   (24, "[merged cells]", ""),
   (25, "torch [CUDA]", dictGet torch_vers "cuda" "[tbd]"),
   (26, "torch [ROCM]", dictGet torch_vers "rocm" "[tbd]"),
   (27, "torch [TPU]", dictGet torch_vers "tpu" "[TPU]"),
   (28, "torch [Spyre]", "[Spyre]"),
   (29, "[merged cells]", ""),
   (30, "aiter [ROCM]", aiter_ver),
   (31, "compressed-tensors [CUDA, ROCM, TPU, Spyre]",
      dictGet common_pkgs "compressed-tensors" "[tbd]"),
   (32, "flashinfer [CUDA]", dictGet accel_pkgs "flashinfer" "[tbd]"),
   (33, "flash_attn [ROCM]", flash_attn_ver),
   (34, "nccl", nccl_ver),
   (35, "nvshmem", dictGet ep_vers "nvshmem" "[tbd]"),
   (36, "tokenizers [CUDA, ROCM, TPU from 3.2.1]",
      dictGet common_pkgs "tokenizers" "[tbd]"),
   (37, "tokenizers [Spyre]", "[Spyre]"),
   (38, "tpu-info [TPU]", dictGet accel_pkgs "tpu-info" "[TPU]"),
   (39, "transformers [CUDA, ROCM, TPU from 3.2.1]",
      dictGet common_pkgs "transformers" "[tbd]"),
   (40, "transformers [Spyre]", "[Spyre]"),
   (41, "triton [CUDA, ROCM,TPU from 3.2.1]", dictGet accel_pkgs "triton" "[tbd]"),
   (42, "triton [Spyre]", "[Spyre]"),
   (43, "vllm-tgis-adapter [CUDA, ROCM, Spyre]", "[tbd]")]

/-- Stable insertion by ascending slot ordinal. -/
def insertBySlot (x : Nat × String × String) :
    List (Nat × String × String) → List (Nat × String × String)
  | [] => [x]
  | y :: ys => if x.1 ≤ y.1 then x :: y :: ys else y :: insertBySlot x ys

/-- `sorted_versions = sorted(versions, key=lambda x: x[0])`
(`format_output`, `src/generate_component_versions.py` line 468): Python's
stable ascending sort by slot ordinal, as a stable insertion sort. -/
def format_output_sorted (versions : List (Nat × String × String)) :
    List (Nat × String × String) :=
  versions.foldr insertBySlot []

/-! ## Basic lemmas about the scanning primitives -/

theorem spanP_nil (p : Char → Bool) : spanP p [] = ([], []) := rfl

theorem spanP_cons_pos {p : Char → Bool} {c : Char} (t : List Char) (h : p c = true) :
    spanP p (c :: t) = (c :: (spanP p t).1, (spanP p t).2) := by
  simp [spanP, h]

theorem spanP_cons_neg {p : Char → Bool} {c : Char} (t : List Char) (h : p c = false) :
    spanP p (c :: t) = ([], c :: t) := by
  simp [spanP, h]

theorem spanP_append_all {p : Char → Bool} {xs : List Char} (r : List Char)
    (h : ∀ c ∈ xs, p c = true) :
    spanP p (xs ++ r) = (xs ++ (spanP p r).1, (spanP p r).2) := by
  induction xs with
  | nil => simp
  | cons c t ih =>
    have hc : p c = true := h c (List.mem_cons_self c t)
    have ht : ∀ c ∈ t, p c = true := fun x hx => h x (List.mem_cons_of_mem c hx)
    simp [List.cons_append, spanP_cons_pos _ hc, ih ht]

theorem spanP_all {p : Char → Bool} {xs : List Char} (h : ∀ c ∈ xs, p c = true) :
    spanP p xs = (xs, []) := by
  have := spanP_append_all (p := p) [] h
  simpa [spanP] using this

theorem spanP_split {p : Char → Bool} {xs : List Char} {y : Char} (ys : List Char)
    (h : ∀ c ∈ xs, p c = true) (hy : p y = false) :
    spanP p (xs ++ y :: ys) = (xs, y :: ys) := by
  rw [spanP_append_all (y :: ys) h, spanP_cons_neg ys hy]
  simp

theorem dropWhile_cons_neg {p : Char → Bool} {c : Char} (t : List Char)
    (h : p c = false) : (c :: t).dropWhile p = c :: t := by
  simp [List.dropWhile, h]

/-- A string without surrounding whitespace is unchanged by `strip`. -/
theorem stripC_of_noSpace {l : List Char} (h : ∀ c ∈ l, isSpace c = false) :
    stripC l = l := by
  have h1 : l.dropWhile isSpace = l := by
    cases l with
    | nil => rfl
    | cons c t => exact dropWhile_cons_neg t (h c (List.mem_cons_self c t))
  have h2 : l.reverse.dropWhile isSpace = l.reverse := by
    cases hr : l.reverse with
    | nil => rfl
    | cons d u =>
      have hd : d ∈ l := by
        have : d ∈ l.reverse := by rw [hr]; exact List.mem_cons_self d u
        exact List.mem_reverse.mp this
      exact dropWhile_cons_neg u (h d hd)
  unfold stripC
  rw [h1, h2, List.reverse_reverse]

/-- Membership in the whitespace class means being one of its six characters. -/
theorem isSpace_cases {c : Char} (h : isSpace c = true) :
    c = ' ' ∨ c = '\t' ∨ c = '\n' ∨ c = '\r' ∨ c = '\x0b' ∨ c = '\x0c' := by
  unfold isSpace at h
  simp only [Bool.or_eq_true, decide_eq_true_eq] at h
  tauto

/-- Membership in the operator class means being one of its four characters. -/
theorem isOpC_cases {c : Char} (h : isOpC c = true) :
    c = '>' ∨ c = '<' ∨ c = '=' ∨ c = '!' := by
  unfold isOpC at h
  simp only [Bool.or_eq_true, decide_eq_true_eq] at h
  tauto

theorem noSpace_of_isNameC {c : Char} (h : isNameC c = true) : isSpace c = false := by
  by_contra hs
  rcases isSpace_cases (by simpa using hs) with h1 | h1 | h1 | h1 | h1 | h1 <;>
    subst h1 <;> exact absurd h (by decide)

theorem noSpace_of_isOpC {c : Char} (h : isOpC c = true) : isSpace c = false := by
  rcases isOpC_cases h with h1 | h1 | h1 | h1 <;> subst h1 <;> decide

theorem noSpace_of_isValC {c : Char} (h : isValC c = true) : isSpace c = false := by
  by_contra hs
  rcases isSpace_cases (by simpa using hs) with h1 | h1 | h1 | h1 | h1 | h1 <;>
    subst h1 <;> exact absurd h (by decide)

theorem noOp_of_isValC {c : Char} (h : isValC c = true) : isOpC c = false := by
  by_contra hs
  rcases isOpC_cases (by simpa using hs) with h1 | h1 | h1 | h1 <;>
    subst h1 <;> exact absurd h (by decide)

theorem noOp_of_isNameC {c : Char} (h : isNameC c = true) : isOpC c = false := by
  by_contra hs
  rcases isOpC_cases (by simpa using hs) with h1 | h1 | h1 | h1 <;>
    subst h1 <;> exact absurd h (by decide)

theorem isValC_of_isDigitC {c : Char} (h : isDigitC c = true) : isValC c = true := by
  simp [isValC, h]

theorem isValC_of_isDigitDotC {c : Char} (h : isDigitDotC c = true) : isValC c = true := by
  unfold isDigitDotC at h
  rcases Bool.or_eq_true_iff.mp h with h1 | h1
  · simp [isValC, h1]
  · simp [isValC, h1]

theorem ne_of_isNameC {c x : Char} (h : isNameC c = true) (hx : isNameC x = false) :
    c ≠ x := by
  intro he
  rw [he, hx] at h
  exact Bool.false_ne_true h

theorem ne_of_isValC {c x : Char} (h : isValC c = true) (hx : isValC x = false) :
    c ≠ x := by
  intro he
  rw [he, hx] at h
  exact Bool.false_ne_true h

/-! ## Symbolic evaluation of the matchers on structured lines -/

theorem spanP_stop_all {p : Char → Bool} {a : List Char} (z : List Char) (ha : a ≠ [])
    (hall : ∀ c ∈ a, p c = false) : spanP p (a ++ z) = ([], a ++ z) := by
  obtain ⟨d, t, rfl⟩ := List.exists_cons_of_ne_nil ha
  rw [List.cons_append, spanP_cons_neg _ (hall d (List.mem_cons_self d t))]

theorem elem_eq_false_of_all_ne {x : Char} {l : List Char} (h : ∀ c ∈ l, c ≠ x) :
    l.elem x = false := by
  induction l with
  | nil => rfl
  | cons c t ih =>
    have hc : ¬(x == c) = true := by
      simp only [beq_iff_eq]
      exact fun he => (h c (List.mem_cons_self c t)) he.symm
    have hc' : (x == c) = false := Bool.not_eq_true _ |>.mp hc
    simp only [List.elem_cons, hc']
    exact ih (fun c hm => h c (List.mem_cons_of_mem _ hm))

theorem reExtrasAt_cons_ne {c : Char} (t : List Char) (h : ¬(c = '[')) :
    reExtrasAt (c :: t) = none := by
  unfold reExtrasAt
  split
  · next heq =>
    rw [List.cons.injEq] at heq
    exact absurd heq.1 h
  · rfl

/-- Evaluation of the standard-form regex on a line `name ++ c0 :: rest`
whose name part is a maximal run of name characters and whose first
non-name character is not `[` and not whitespace. -/
theorem reStdMatch_append {name : List Char} {c0 : Char} {rest : List Char}
    (hn : name ≠ []) (hname : ∀ c ∈ name, isNameC c = true)
    (hc0 : isNameC c0 = false) (hc0b : ¬(c0 = '[')) (hc0s : isSpace c0 = false) :
    reStdMatch (name ++ c0 :: rest) =
      (match reClause (c0 :: rest) with
       | some (cl, r) => some (name, some (cl ++ reMoreClauses r.length r))
       | none => some (name, none)) := by
  unfold reStdMatch
  rw [spanP_split rest hname hc0]
  simp only [List.isEmpty_eq_true, hn, if_false,
    reExtrasAt_cons_ne rest hc0b, spanP_cons_neg rest hc0s]

/-- Evaluation of either parser on a standard-form line: the guards pass,
the URL branch is skipped, and the result is the name paired with the
resolved constraint (or `latest`). -/
theorem parse_diff_std_eval {name : List Char} {c0 : Char} {rest : List Char}
    (hn : name ≠ []) (hname : ∀ c ∈ name, isNameC c = true)
    (hc0 : isNameC c0 = false) (hc0b : ¬(c0 = '[')) (hc0s : isSpace c0 = false)
    (hsp : ∀ c ∈ rest, isSpace c = false)
    (hat : (name ++ c0 :: rest).elem '@' = false) :
    parse_package_line_diff (name ++ c0 :: rest) =
      some (name,
        match reClause (c0 :: rest) with
        | some (cl, r) => resolve_constraint_diff (cl ++ reMoreClauses r.length r)
        | none => "latest".toList) := by
  have hnosp : ∀ c ∈ name ++ c0 :: rest, isSpace c = false := by
    intro c hc
    rcases List.mem_append.mp hc with h | h
    · exact noSpace_of_isNameC (hname c h)
    · rcases List.mem_cons.mp h with rfl | h
      · exact hc0s
      · exact hsp c h
  have hstrip : stripC (name ++ c0 :: rest) = name ++ c0 :: rest :=
    stripC_of_noSpace hnosp
  have hguard : ((name ++ c0 :: rest).isEmpty ||
      decide ((name ++ c0 :: rest).head? = some '#')) = false := by
    obtain ⟨x, t, rfl⟩ := List.exists_cons_of_ne_nil hn
    have hxh : ¬(x = '#') :=
      ne_of_isNameC (hname x (List.mem_cons_self x t)) (by decide)
    simp [hxh]
  unfold parse_package_line_diff
  rw [hstrip]
  simp only [hguard, Bool.false_eq_true, if_false, hat, Bool.false_and,
    reStdMatch_append hn hname hc0 hc0b hc0s]
  cases hcl : reClause (c0 :: rest) with
  | none => rfl
  | some v =>
    obtain ⟨cl, r⟩ := v
    rfl

theorem parse_gen_std_eval {name : List Char} {c0 : Char} {rest : List Char}
    (hn : name ≠ []) (hname : ∀ c ∈ name, isNameC c = true)
    (hdd : "--".toList.isPrefixOf (name ++ c0 :: rest) = false)
    (hc0 : isNameC c0 = false) (hc0b : ¬(c0 = '[')) (hc0s : isSpace c0 = false)
    (hsp : ∀ c ∈ rest, isSpace c = false)
    (hat : (name ++ c0 :: rest).elem '@' = false) :
    parse_package_line_gen (name ++ c0 :: rest) =
      some (name,
        match reClause (c0 :: rest) with
        | some (cl, r) => resolve_constraint_gen (cl ++ reMoreClauses r.length r)
        | none => "latest".toList) := by
  have hnosp : ∀ c ∈ name ++ c0 :: rest, isSpace c = false := by
    intro c hc
    rcases List.mem_append.mp hc with h | h
    · exact noSpace_of_isNameC (hname c h)
    · rcases List.mem_cons.mp h with rfl | h
      · exact hc0s
      · exact hsp c h
  have hstrip : stripC (name ++ c0 :: rest) = name ++ c0 :: rest :=
    stripC_of_noSpace hnosp
  have hguard : ((name ++ c0 :: rest).isEmpty ||
      decide ((name ++ c0 :: rest).head? = some '#') ||
      "--".toList.isPrefixOf (name ++ c0 :: rest)) = false := by
    obtain ⟨x, t, rfl⟩ := List.exists_cons_of_ne_nil hn
    have hxh : ¬(x = '#') :=
      ne_of_isNameC (hname x (List.mem_cons_self x t)) (by decide)
    simp only [List.cons_append, show "--".toList = ['-', '-'] from rfl] at hdd
    simp [hxh, hdd]
  unfold parse_package_line_gen
  rw [hstrip]
  simp only [hguard, Bool.false_eq_true, if_false, hat, Bool.false_and,
    reStdMatch_append hn hname hc0 hc0b hc0s]
  cases hcl : reClause (c0 :: rest) with
  | none => rfl
  | some v =>
    obtain ⟨cl, r⟩ := v
    rfl

/-! ## Sortedness of the fixed catalogue -/

theorem pairwise_slot_sorted_eq {l : List (Nat × String × String)}
    (h : l.Pairwise (fun a b => a.1 ≤ b.1)) : format_output_sorted l = l := by
  induction l with
  | nil => rfl
  | cons x xs ih =>
    rw [List.pairwise_cons] at h
    show insertBySlot x (format_output_sorted xs) = x :: xs
    rw [ih h.2]
    cases xs with
    | nil => rfl
    | cons y ys =>
      have hxy : x.1 ≤ y.1 := h.1 y (List.mem_cons_self y ys)
      simp [insertBySlot, hxy]

/-! ## Evaluation of the embedded searches on structured constraint text -/

theorem ne_at_of_class {c : Char}
    (h : isNameC c = true ∨ isOpC c = true ∨ isValC c = true ∨ c = ',') : c ≠ '@' := by
  rcases h with h | h | h | h
  · exact ne_of_isNameC h (by decide)
  · rcases isOpC_cases h with h1 | h1 | h1 | h1 <;> subst h1 <;> decide
  · exact ne_of_isValC h (by decide)
  · subst h
    decide

theorem reVer2At_cons_nondigit {c : Char} (t : List Char) (h : isDigitC c = false) :
    reVer2At (c :: t) = none := by
  unfold reVer2At
  rw [spanP_cons_neg t h]
  rfl

theorem reVer2Search_cons (c : Char) (t : List Char) :
    reVer2Search (c :: t) =
      (match reVer2At (c :: t) with
       | some (m, _) => some m
       | none => reVer2Search t) := rfl

theorem reVer2Search_cons_step {c : Char} (t : List Char)
    (h : reVer2At (c :: t) = none) : reVer2Search (c :: t) = reVer2Search t := by
  rw [reVer2Search_cons, h]

theorem reVer2Search_at {l m r : List Char} (hl : l ≠ [])
    (h : reVer2At l = some (m, r)) : reVer2Search l = some m := by
  obtain ⟨c, t, rfl⟩ := List.exists_cons_of_ne_nil hl
  rw [reVer2Search_cons, h]

theorem reLowerSearch_cons (c : Char) (t : List Char) :
    reLowerSearch (c :: t) =
      (if c = '>' then
        match
          (match t with
           | '=' :: r2 => (reLowerTail r2).or (reLowerTail t)
           | _ => reLowerTail t) with
        | some m => some m
        | none => reLowerSearch t
      else reLowerSearch t) := rfl

theorem reLowerSearch_none {l : List Char} (h : ∀ c ∈ l, ¬(c = '>')) :
    reLowerSearch l = none := by
  induction l with
  | nil => rfl
  | cons c t ih =>
    rw [reLowerSearch_cons, if_neg (h c (List.mem_cons_self c t))]
    exact ih fun x hm => h x (List.mem_cons_of_mem _ hm)

theorem reExactAt_none_of_head {c : Char} (t : List Char) (h : ¬(c = '=')) :
    reExactAt (c :: t) = none := by
  unfold reExactAt
  split
  · next heq =>
    rw [List.cons.injEq] at heq
    exact absurd heq.1 h
  · rfl

theorem reExactAt_none_of_second {c c2 : Char} (t : List Char) (h : ¬(c2 = '=')) :
    reExactAt (c :: c2 :: t) = none := by
  unfold reExactAt
  split
  · next heq =>
    rw [List.cons.injEq] at heq
    rw [List.cons.injEq] at heq
    exact absurd heq.2.1 h
  · rfl

theorem reExactSearch_cons (c : Char) (t : List Char) :
    reExactSearch (c :: t) =
      (match reExactAt (c :: t) with
       | some m => some m
       | none => reExactSearch t) := rfl

theorem reExactSearch_cons_step {c : Char} (t : List Char)
    (h : reExactAt (c :: t) = none) : reExactSearch (c :: t) = reExactSearch t := by
  rw [reExactSearch_cons, h]

theorem reExactSearch_none_of_all {l : List Char} (h : ∀ c ∈ l, ¬(c = '=')) :
    reExactSearch l = none := by
  induction l with
  | nil => rfl
  | cons c t ih =>
    rw [reExactSearch_cons_step t (reExactAt_none_of_head t (h c (List.mem_cons_self c t)))]
    exact ih fun x hm => h x (List.mem_cons_of_mem _ hm)

theorem reExactSearch_at {l : List Char} {m : List Char} (hl : l ≠ [])
    (h : reExactAt l = some m) : reExactSearch l = some m := by
  obtain ⟨c, t, rfl⟩ := List.exists_cons_of_ne_nil hl
  rw [reExactSearch_cons, h]

/-- digit/dot strings are constraint-value characters but neither `=`, `>`
nor operator characters; packaged for reuse. -/
theorem digitDot_facts {v : List Char} (hdv : ∀ c ∈ v, isDigitDotC c = true) :
    (∀ c ∈ v, isValC c = true) ∧ (∀ c ∈ v, ¬(c = '=')) ∧ (∀ c ∈ v, ¬(c = '>')) ∧
    (∀ c ∈ v, isSpace c = false) ∧ (∀ c ∈ v, isOpC c = false) ∧
    (∀ c ∈ v, isDigitDotC c = true) := by
  refine ⟨fun c hc => isValC_of_isDigitDotC (hdv c hc),
    fun c hc => ne_of_isValC (isValC_of_isDigitDotC (hdv c hc)) (by decide),
    fun c hc => ne_of_isValC (isValC_of_isDigitDotC (hdv c hc)) (by decide),
    fun c hc => noSpace_of_isValC (isValC_of_isDigitDotC (hdv c hc)),
    fun c hc => noOp_of_isValC (isValC_of_isDigitDotC (hdv c hc)), hdv⟩

/-- One clause `ops ++ vals`: operator run followed by a value run, with
`rest` beginning at a non-value character (packaged as the `spanP`
hypothesis). -/
theorem reClause_eval (ops v rest : List Char)
    (hops : ops ≠ []) (hopc : ∀ c ∈ ops, isOpC c = true)
    (hv : v ≠ []) (hvc : ∀ c ∈ v, isValC c = true)
    (hsp : spanP isValC (v ++ rest) = (v, rest)) :
    reClause (ops ++ (v ++ rest)) = some (ops ++ v, rest) := by
  obtain ⟨d, t, rfl⟩ := List.exists_cons_of_ne_nil hv
  have hd : isValC d = true := hvc d (List.mem_cons_self d t)
  unfold reClause
  rw [List.cons_append, spanP_split (t ++ rest) hopc (noOp_of_isValC hd)]
  rw [List.cons_append] at hsp
  simp only [List.isEmpty_eq_true, hops, if_false,
    spanP_cons_neg (t ++ rest) (noSpace_of_isValC hd), hsp]
  simp

theorem reMoreClauses_nil (fuel : Nat) : reMoreClauses fuel [] = [] := by
  cases fuel with
  | zero => rfl
  | succ n => simp [reMoreClauses, spanP]

theorem spanP_nospace {v : List Char} (hv : v ≠ []) (h : ∀ c ∈ v, isSpace c = false) :
    spanP isSpace v = ([], v) := by
  obtain ⟨d, t, rfl⟩ := List.exists_cons_of_ne_nil hv
  exact spanP_cons_neg t (h d (List.mem_cons_self d t))

theorem reUpperTail_pos {v : List Char} (hv : v ≠ []) (hdv : ∀ c ∈ v, isDigitDotC c = true) :
    reUpperTail v = true := by
  obtain ⟨d, t, rfl⟩ := List.exists_cons_of_ne_nil hv
  have hd := hdv d (List.mem_cons_self d t)
  unfold reUpperTail
  rw [spanP_cons_neg t (noSpace_of_isValC (isValC_of_isDigitDotC hd))]
  simp [spanP_cons_pos t hd]

theorem reUpperMatch_lt {v : List Char} (hv : v ≠ []) (hdv : ∀ c ∈ v, isDigitDotC c = true) :
    reUpperMatch ('<' :: v) = true := by
  obtain ⟨d, t, rfl⟩ := List.exists_cons_of_ne_nil hv
  have hd := hdv d (List.mem_cons_self d t)
  have hdne : ¬(d = '=') := ne_of_isValC (isValC_of_isDigitDotC hd) (by decide)
  unfold reUpperMatch
  rw [dropWhile_cons_neg (d :: t) (by decide)]
  show (match d :: t with
        | '=' :: r2 => reUpperTail r2 || reUpperTail (d :: t)
        | _ => reUpperTail (d :: t)) = true
  split
  · next heq =>
    rw [List.cons.injEq] at heq
    exact absurd heq.1 hdne
  · exact reUpperTail_pos hv hdv

theorem reUpperMatch_le {v : List Char} (hv : v ≠ []) (hdv : ∀ c ∈ v, isDigitDotC c = true) :
    reUpperMatch ('<' :: '=' :: v) = true := by
  unfold reUpperMatch
  rw [dropWhile_cons_neg ('=' :: v) (by decide)]
  simp [reUpperTail_pos hv hdv]

theorem reLowerTail_eval {ver m r : List Char} (hsp : spanP isSpace ver = ([], ver))
    (h : reVer2At ver = some (m, r)) : reLowerTail ver = some m := by
  simp only [reLowerTail, hsp, h]

theorem reLowerSearch_ge {ver m r : List Char} (hsp : spanP isSpace ver = ([], ver))
    (h : reVer2At ver = some (m, r)) :
    reLowerSearch ('>' :: '=' :: ver) = some m := by
  rw [reLowerSearch_cons, if_pos rfl]
  simp only [reLowerTail_eval hsp h, Option.or]

theorem reExactAt_eval {v m r : List Char} (hsp : spanP isSpace v = ([], v))
    (h : reVer2At v = some (m, r)) : reExactAt ('=' :: '=' :: v) = some m := by
  simp only [reExactAt, hsp, h]

/-! ## Dotted numeric version tokens `X.Y` and `X.Y.Z` -/

theorem reVer2At_two {a b : List Char} (ha : a ≠ []) (hda : ∀ x ∈ a, isDigitC x = true)
    (hb : b ≠ []) (hdb : ∀ x ∈ b, isDigitC x = true) :
    reVer2At (a ++ '.' :: b) = some (a ++ '.' :: b, []) := by
  unfold reVer2At
  rw [spanP_split b hda (by decide)]
  simp only [List.isEmpty_eq_true, ha, if_false]
  rw [spanP_all hdb]
  simp [hb]

theorem reVer2At_two_comma {a b rest : List Char} (ha : a ≠ [])
    (hda : ∀ x ∈ a, isDigitC x = true) (hb : b ≠ []) (hdb : ∀ x ∈ b, isDigitC x = true) :
    reVer2At (a ++ '.' :: (b ++ ',' :: rest)) = some (a ++ '.' :: b, ',' :: rest) := by
  unfold reVer2At
  rw [spanP_split (b ++ ',' :: rest) hda (by decide)]
  simp only [List.isEmpty_eq_true, ha, if_false]
  rw [spanP_split rest hdb (by decide)]
  simp [hb]

theorem reVer2At_three {a b c : List Char} (ha : a ≠ []) (hda : ∀ x ∈ a, isDigitC x = true)
    (hb : b ≠ []) (hdb : ∀ x ∈ b, isDigitC x = true)
    (hc : c ≠ []) (hdc : ∀ x ∈ c, isDigitC x = true) :
    reVer2At (a ++ '.' :: (b ++ '.' :: c)) = some (a ++ '.' :: (b ++ '.' :: c), []) := by
  unfold reVer2At
  rw [spanP_split (b ++ '.' :: c) hda (by decide)]
  simp only [List.isEmpty_eq_true, ha, if_false]
  rw [spanP_split c hdb (by decide)]
  simp only [List.isEmpty_eq_true, hb, if_false]
  rw [spanP_all hdc]
  simp [hc]

theorem dotted2_digitDot {a b : List Char} (hda : ∀ x ∈ a, isDigitC x = true)
    (hdb : ∀ x ∈ b, isDigitC x = true) :
    ∀ c ∈ a ++ '.' :: b, isDigitDotC c = true := by
  intro c hc
  rcases List.mem_append.mp hc with h | h
  · simp [isDigitDotC, hda c h]
  · rcases List.mem_cons.mp h with rfl | h
    · decide
    · simp [isDigitDotC, hdb c h]

theorem dotted3_digitDot {a b c : List Char} (hda : ∀ x ∈ a, isDigitC x = true)
    (hdb : ∀ x ∈ b, isDigitC x = true) (hdc : ∀ x ∈ c, isDigitC x = true) :
    ∀ x ∈ a ++ '.' :: (b ++ '.' :: c), isDigitDotC x = true := by
  intro x hx
  rcases List.mem_append.mp hx with h | h
  · simp [isDigitDotC, hda x h]
  · rcases List.mem_cons.mp h with rfl | h
    · decide
    · exact dotted2_digitDot hdb hdc x h

/-- `--` is not a prefix of `name ++ c0 :: rest` when it is not a prefix of
the nonempty `name` and `c0` is not `-`. -/
theorem ddPrefix_append {name : List Char} {c0 : Char} (rest : List Char)
    (hn : name ≠ []) (hdd : "--".toList.isPrefixOf name = false) (hc0 : ¬(c0 = '-')) :
    "--".toList.isPrefixOf (name ++ c0 :: rest) = false := by
  obtain ⟨x, t, rfl⟩ := List.exists_cons_of_ne_nil hn
  cases t with
  | nil =>
    have : ('-' == c0) = false := by
      simp only [beq_eq_false_iff_ne, ne_eq]
      exact fun he => hc0 he.symm
    simp [List.isPrefixOf, show "--".toList = ['-', '-'] from rfl, this]
  | cons y t2 =>
    simp only [show "--".toList = ['-', '-'] from rfl, List.cons_append,
      List.isPrefixOf] at hdd ⊢
    exact hdd

/-! ## Resolution of the version for each constraint family -/

theorem reLowerSearch_append (xs : List Char) {ys : List Char}
    (h : ∀ c ∈ xs, ¬(c = '>')) :
    reLowerSearch (xs ++ ys) = reLowerSearch ys := by
  induction xs with
  | nil => rfl
  | cons c t ih =>
    rw [List.cons_append, reLowerSearch_cons, if_neg (h c (List.mem_cons_self c t))]
    exact ih fun x hm => h x (List.mem_cons_of_mem _ hm)

/-- An upper-bound-only constraint `<` + digits/dots resolves to itself. -/
theorem resolve_gen_upper_lt {v : List Char} (hv : v ≠ [])
    (hdv : ∀ c ∈ v, isDigitDotC c = true) :
    resolve_constraint_gen ('<' :: v) = '<' :: v := by
  obtain ⟨hval, hne_eq, hne_gt, hnosp, -, -⟩ := digitDot_facts hdv
  have hlo : reLowerSearch ('<' :: v) = none := by
    apply reLowerSearch_none
    intro c hc
    rcases List.mem_cons.mp hc with rfl | hc
    · decide
    · exact hne_gt c hc
  have hex : reExactSearch ('<' :: v) = none := by
    apply reExactSearch_none_of_all
    intro c hc
    rcases List.mem_cons.mp hc with rfl | hc
    · decide
    · exact hne_eq c hc
  have hnospec : ∀ c ∈ '<' :: v, isSpace c = false := by
    intro c hc
    rcases List.mem_cons.mp hc with rfl | hc
    · decide
    · exact hnosp c hc
  simp only [resolve_constraint_gen, hlo, hex, stripC_of_noSpace hnospec,
    reUpperMatch_lt hv hdv, if_true]

/-- An upper-bound-only constraint `<=` + digits/dots resolves to itself. -/
theorem resolve_gen_upper_le {v : List Char} (hv : v ≠ [])
    (hdv : ∀ c ∈ v, isDigitDotC c = true) :
    resolve_constraint_gen ('<' :: '=' :: v) = '<' :: '=' :: v := by
  obtain ⟨hval, hne_eq, hne_gt, hnosp, -, -⟩ := digitDot_facts hdv
  have hlo : reLowerSearch ('<' :: '=' :: v) = none := by
    apply reLowerSearch_none
    intro c hc
    rcases List.mem_cons.mp hc with rfl | hc
    · decide
    rcases List.mem_cons.mp hc with rfl | hc
    · decide
    · exact hne_gt c hc
  have hex : reExactSearch ('<' :: '=' :: v) = none := by
    obtain ⟨d, t, rfl⟩ := List.exists_cons_of_ne_nil hv
    have hd : ¬(d = '=') :=
      ne_of_isValC (isValC_of_isDigitDotC (hdv d (List.mem_cons_self d t))) (by decide)
    rw [reExactSearch_cons_step _ (reExactAt_none_of_head _ (by decide)),
      reExactSearch_cons_step _ (reExactAt_none_of_second _ hd)]
    exact reExactSearch_none_of_all hne_eq
  have hnospec : ∀ c ∈ '<' :: '=' :: v, isSpace c = false := by
    intro c hc
    rcases List.mem_cons.mp hc with rfl | hc
    · decide
    rcases List.mem_cons.mp hc with rfl | hc
    · decide
    · exact hnosp c hc
  simp only [resolve_constraint_gen, hlo, hex, stripC_of_noSpace hnospec,
    reUpperMatch_le hv hdv, if_true]

/-- A lower-bound constraint `>=` + numeric version resolves to the
`>=` value. -/
theorem resolve_gen_lower {ver m r : List Char} (hsp : spanP isSpace ver = ([], ver))
    (h : reVer2At ver = some (m, r)) :
    resolve_constraint_gen ('>' :: '=' :: ver) = m := by
  simp only [resolve_constraint_gen, reLowerSearch_ge hsp h]

/-- An exact constraint `==` + numeric version resolves to the `==` value. -/
theorem resolve_gen_exact {v m r : List Char} (hsp : spanP isSpace v = ([], v))
    (h : reVer2At v = some (m, r)) (hne_gt : ∀ c ∈ v, ¬(c = '>')) :
    resolve_constraint_gen ('=' :: '=' :: v) = m := by
  have hlo : reLowerSearch ('=' :: '=' :: v) = none := by
    apply reLowerSearch_none
    intro c hc
    rcases List.mem_cons.mp hc with rfl | hc
    · decide
    rcases List.mem_cons.mp hc with rfl | hc
    · decide
    · exact hne_gt c hc
  have hex : reExactSearch ('=' :: '=' :: v) = some m :=
    reExactSearch_at (by simp) (reExactAt_eval hsp h)
  simp only [resolve_constraint_gen, hlo, hex]

/-- `==v1,>=v2`: the `>=` value wins in the gen parser's resolution. -/
theorem resolve_gen_exact_then_lower {v1 v2 m r : List Char}
    (hv1c : ∀ c ∈ v1, isValC c = true)
    (hsp2 : spanP isSpace v2 = ([], v2)) (h2 : reVer2At v2 = some (m, r)) :
    resolve_constraint_gen (('=' :: '=' :: v1) ++ ',' :: '>' :: '=' :: v2) = m := by
  have hlo : reLowerSearch (('=' :: '=' :: v1) ++ ',' :: '>' :: '=' :: v2) = some m := by
    rw [reLowerSearch_append ('=' :: '=' :: v1) ?hne]
    case hne =>
      intro c hc
      rcases List.mem_cons.mp hc with rfl | hc
      · decide
      rcases List.mem_cons.mp hc with rfl | hc
      · decide
      · exact ne_of_isValC (hv1c c hc) (by decide)
    rw [reLowerSearch_cons, if_neg (by decide)]
    exact reLowerSearch_ge hsp2 h2
  simp only [resolve_constraint_gen, hlo]

/-- The diff parser's resolution skips two non-digit characters and reports
the first numeric version found. -/
theorem resolve_diff_skip2 {c1 c2 : Char} {v m r : List Char}
    (h1 : isDigitC c1 = false) (h2 : isDigitC c2 = false) (hv : v ≠ [])
    (h : reVer2At v = some (m, r)) :
    resolve_constraint_diff (c1 :: c2 :: v) = m := by
  unfold resolve_constraint_diff
  rw [reVer2Search_cons_step _ (reVer2At_cons_nondigit _ h1),
    reVer2Search_cons_step _ (reVer2At_cons_nondigit _ h2),
    reVer2Search_at hv h]

/-! ## Full parses of the constraint families -/

theorem reClause_ops_val (ops v : List Char) (hops : ops ≠ [])
    (hopc : ∀ c ∈ ops, isOpC c = true) (hv : v ≠ [])
    (hvc : ∀ c ∈ v, isValC c = true) :
    reClause (ops ++ v) = some (ops ++ v, []) := by
  have h := reClause_eval ops v [] hops hopc hv hvc
    (by rw [List.append_nil]; exact spanP_all hvc)
  rw [List.append_nil] at h
  exact h

theorem reClause_ops_val_comma (ops v rest : List Char) (hops : ops ≠ [])
    (hopc : ∀ c ∈ ops, isOpC c = true) (hv : v ≠ [])
    (hvc : ∀ c ∈ v, isValC c = true) :
    reClause (ops ++ (v ++ ',' :: rest)) = some (ops ++ v, ',' :: rest) :=
  reClause_eval ops v (',' :: rest) hops hopc hv hvc (spanP_split rest hvc (by decide))

/-- Both parsers on `name ++ ">=" ++ v` where `v` wholly matches the numeric
version pattern: both report `v`. -/
theorem parse_ge_eval {name v : List Char}
    (hn : name ≠ []) (hname : ∀ c ∈ name, isNameC c = true)
    (hdd : "--".toList.isPrefixOf name = false)
    (hvc : ∀ c ∈ v, isValC c = true) (hv2 : reVer2At v = some (v, [])) :
    parse_package_line_gen (name ++ '>' :: '=' :: v) = some (name, v) ∧
    parse_package_line_diff (name ++ '>' :: '=' :: v) = some (name, v) := by
  have hv : v ≠ [] := by
    intro h
    rw [h] at hv2
    simp [reVer2At, spanP] at hv2
  have hnospv : ∀ c ∈ v, isSpace c = false := fun c hc => noSpace_of_isValC (hvc c hc)
  have hsp : ∀ c ∈ '=' :: v, isSpace c = false := by
    intro c hc
    rcases List.mem_cons.mp hc with rfl | hc
    · decide
    · exact hnospv c hc
  have hat : (name ++ '>' :: '=' :: v).elem '@' = false := by
    apply elem_eq_false_of_all_ne
    intro c hc
    rcases List.mem_append.mp hc with h | h
    · exact ne_at_of_class (Or.inl (hname c h))
    rcases List.mem_cons.mp h with rfl | h
    · decide
    rcases List.mem_cons.mp h with rfl | h
    · decide
    · exact ne_at_of_class (Or.inr (Or.inr (Or.inl (hvc c h))))
  have hddl : "--".toList.isPrefixOf (name ++ '>' :: '=' :: v) = false :=
    ddPrefix_append _ hn hdd (by decide)
  have hcl : reClause ('>' :: '=' :: v) = some ('>' :: '=' :: v, []) := by
    have h := reClause_ops_val ['>', '='] v (by decide) (by decide) hv hvc
    simpa using h
  have hres : resolve_constraint_gen ('>' :: '=' :: v) = v :=
    resolve_gen_lower (spanP_nospace hv hnospv) hv2
  constructor
  · rw [parse_gen_std_eval hn hname hddl (by decide) (by decide) (by decide) hsp hat, hcl]
    simp [reMoreClauses_nil, hres]
  · rw [parse_diff_std_eval hn hname (by decide) (by decide) (by decide) hsp hat, hcl]
    have hresd : resolve_constraint_diff ('>' :: '=' :: v) = v :=
      resolve_diff_skip2 (by decide) (by decide) hv hv2
    simp [reMoreClauses_nil, hresd]

/-- Both parsers on `name ++ "==" ++ v` where `v` wholly matches the numeric
version pattern: both report `v`. -/
theorem parse_eq_eval {name v : List Char}
    (hn : name ≠ []) (hname : ∀ c ∈ name, isNameC c = true)
    (hdd : "--".toList.isPrefixOf name = false)
    (hvc : ∀ c ∈ v, isValC c = true) (hv2 : reVer2At v = some (v, [])) :
    parse_package_line_gen (name ++ '=' :: '=' :: v) = some (name, v) ∧
    parse_package_line_diff (name ++ '=' :: '=' :: v) = some (name, v) := by
  have hv : v ≠ [] := by
    intro h
    rw [h] at hv2
    simp [reVer2At, spanP] at hv2
  have hnospv : ∀ c ∈ v, isSpace c = false := fun c hc => noSpace_of_isValC (hvc c hc)
  have hsp : ∀ c ∈ '=' :: v, isSpace c = false := by
    intro c hc
    rcases List.mem_cons.mp hc with rfl | hc
    · decide
    · exact hnospv c hc
  have hat : (name ++ '=' :: '=' :: v).elem '@' = false := by
    apply elem_eq_false_of_all_ne
    intro c hc
    rcases List.mem_append.mp hc with h | h
    · exact ne_at_of_class (Or.inl (hname c h))
    rcases List.mem_cons.mp h with rfl | h
    · decide
    rcases List.mem_cons.mp h with rfl | h
    · decide
    · exact ne_at_of_class (Or.inr (Or.inr (Or.inl (hvc c h))))
  have hddl : "--".toList.isPrefixOf (name ++ '=' :: '=' :: v) = false :=
    ddPrefix_append _ hn hdd (by decide)
  have hcl : reClause ('=' :: '=' :: v) = some ('=' :: '=' :: v, []) := by
    have h := reClause_ops_val ['=', '='] v (by decide) (by decide) hv hvc
    simpa using h
  have hres : resolve_constraint_gen ('=' :: '=' :: v) = v :=
    resolve_gen_exact (spanP_nospace hv hnospv) hv2
      (fun c hc => ne_of_isValC (hvc c hc) (by decide))
  constructor
  · rw [parse_gen_std_eval hn hname hddl (by decide) (by decide) (by decide) hsp hat, hcl]
    simp [reMoreClauses_nil, hres]
  · rw [parse_diff_std_eval hn hname (by decide) (by decide) (by decide) hsp hat, hcl]
    have hresd : resolve_constraint_diff ('=' :: '=' :: v) = v :=
      resolve_diff_skip2 (by decide) (by decide) hv hv2
    simp [reMoreClauses_nil, hresd]

/-- The gen parser on an upper-bound-only line `name ++ "<" ++ v` (digits and
dots value): the whole constraint text is reported verbatim. -/
theorem parse_gen_upper_lt_eval {name v : List Char}
    (hn : name ≠ []) (hname : ∀ c ∈ name, isNameC c = true)
    (hdd : "--".toList.isPrefixOf name = false)
    (hv : v ≠ []) (hdv : ∀ c ∈ v, isDigitDotC c = true) :
    parse_package_line_gen (name ++ '<' :: v) = some (name, '<' :: v) := by
  obtain ⟨hval, -, -, hnosp, -, -⟩ := digitDot_facts hdv
  have hat : (name ++ '<' :: v).elem '@' = false := by
    apply elem_eq_false_of_all_ne
    intro c hc
    rcases List.mem_append.mp hc with h | h
    · exact ne_at_of_class (Or.inl (hname c h))
    rcases List.mem_cons.mp h with rfl | h
    · decide
    · exact ne_at_of_class (Or.inr (Or.inr (Or.inl (hval c h))))
  have hddl : "--".toList.isPrefixOf (name ++ '<' :: v) = false :=
    ddPrefix_append _ hn hdd (by decide)
  have hcl : reClause ('<' :: v) = some ('<' :: v, []) := by
    have h := reClause_ops_val ['<'] v (by decide) (by decide) hv hval
    simpa using h
  rw [parse_gen_std_eval hn hname hddl (by decide) (by decide) (by decide) hnosp hat, hcl]
  simp [reMoreClauses_nil, resolve_gen_upper_lt hv hdv]

/-- The gen parser on `name ++ "<=" ++ v` (digits and dots value): the
whole constraint text is reported verbatim. -/
theorem parse_gen_upper_le_eval {name v : List Char}
    (hn : name ≠ []) (hname : ∀ c ∈ name, isNameC c = true)
    (hdd : "--".toList.isPrefixOf name = false)
    (hv : v ≠ []) (hdv : ∀ c ∈ v, isDigitDotC c = true) :
    parse_package_line_gen (name ++ '<' :: '=' :: v) = some (name, '<' :: '=' :: v) := by
  obtain ⟨hval, -, -, hnosp, -, -⟩ := digitDot_facts hdv
  have hsp : ∀ c ∈ '=' :: v, isSpace c = false := by
    intro c hc
    rcases List.mem_cons.mp hc with rfl | hc
    · decide
    · exact hnosp c hc
  have hat : (name ++ '<' :: '=' :: v).elem '@' = false := by
    apply elem_eq_false_of_all_ne
    intro c hc
    rcases List.mem_append.mp hc with h | h
    · exact ne_at_of_class (Or.inl (hname c h))
    rcases List.mem_cons.mp h with rfl | h
    · decide
    rcases List.mem_cons.mp h with rfl | h
    · decide
    · exact ne_at_of_class (Or.inr (Or.inr (Or.inl (hval c h))))
  have hddl : "--".toList.isPrefixOf (name ++ '<' :: '=' :: v) = false :=
    ddPrefix_append _ hn hdd (by decide)
  have hcl : reClause ('<' :: '=' :: v) = some ('<' :: '=' :: v, []) := by
    have h := reClause_ops_val ['<', '='] v (by decide) (by decide) hv hval
    simpa using h
  rw [parse_gen_std_eval hn hname hddl (by decide) (by decide) (by decide) hsp hat, hcl]
  simp [reMoreClauses_nil, resolve_gen_upper_le hv hdv]

/-! ## The two-clause family `name==v1,>=v2` -/

theorem reMoreClauses_succ (fuel : Nat) (l : List Char) :
    reMoreClauses (fuel + 1) l =
      (let sp1 := spanP isSpace l
       match sp1.2 with
       | ',' :: r2 =>
         let sp2 := spanP isSpace r2
         match reClause sp2.2 with
         | some (cl, rest) => sp1.1 ++ ',' :: (sp2.1 ++ cl) ++ reMoreClauses fuel rest
         | none => []
       | _ => []) := rfl

theorem reMoreClauses_comma_clause {v2 : List Char} (hv : v2 ≠ [])
    (hvc : ∀ c ∈ v2, isValC c = true) :
    reMoreClauses (',' :: '>' :: '=' :: v2).length (',' :: '>' :: '=' :: v2) =
      ',' :: '>' :: '=' :: v2 := by
  have hcl : reClause ('>' :: '=' :: v2) = some ('>' :: '=' :: v2, []) := by
    have h := reClause_ops_val ['>', '='] v2 (by decide) (by decide) hv hvc
    simpa using h
  show reMoreClauses (v2.length + 1 + 1 + 1) (',' :: '>' :: '=' :: v2) = _
  rw [reMoreClauses_succ, spanP_cons_neg _ (by decide : isSpace ',' = false)]
  dsimp only
  split
  · next r2 heq =>
    rw [List.cons.injEq] at heq
    obtain ⟨-, hr2⟩ := heq
    subst hr2
    rw [spanP_cons_neg _ (by decide : isSpace '>' = false)]
    dsimp only
    rw [hcl]
    dsimp only
    rw [reMoreClauses_nil]
    simp
  · next hne => exact absurd rfl (hne ('>' :: '=' :: v2))

theorem noSpace_mixed {v1 v2 : List Char} (h1 : ∀ c ∈ v1, isValC c = true)
    (h2 : ∀ c ∈ v2, isValC c = true) :
    ∀ c ∈ '=' :: (v1 ++ ',' :: '>' :: '=' :: v2), isSpace c = false := by
  intro c hc
  rcases List.mem_cons.mp hc with rfl | hc
  · decide
  rcases List.mem_append.mp hc with h | h
  · exact noSpace_of_isValC (h1 c h)
  rcases List.mem_cons.mp h with rfl | h
  · decide
  rcases List.mem_cons.mp h with rfl | h
  · decide
  rcases List.mem_cons.mp h with rfl | h
  · decide
  · exact noSpace_of_isValC (h2 c h)

theorem ne_at_mixed {name v1 v2 : List Char} (hname : ∀ c ∈ name, isNameC c = true)
    (h1 : ∀ c ∈ v1, isValC c = true) (h2 : ∀ c ∈ v2, isValC c = true) :
    (name ++ '=' :: '=' :: (v1 ++ ',' :: '>' :: '=' :: v2)).elem '@' = false := by
  apply elem_eq_false_of_all_ne
  intro c hc
  rcases List.mem_append.mp hc with h | h
  · exact ne_at_of_class (Or.inl (hname c h))
  rcases List.mem_cons.mp h with rfl | h
  · decide
  rcases List.mem_cons.mp h with rfl | h
  · decide
  rcases List.mem_append.mp h with h | h
  · exact ne_at_of_class (Or.inr (Or.inr (Or.inl (h1 c h))))
  rcases List.mem_cons.mp h with rfl | h
  · decide
  rcases List.mem_cons.mp h with rfl | h
  · decide
  rcases List.mem_cons.mp h with rfl | h
  · decide
  · exact ne_at_of_class (Or.inr (Or.inr (Or.inl (h2 c h))))

theorem resolve_diff_mixed {a b rest : List Char} (ha : a ≠ [])
    (hda : ∀ x ∈ a, isDigitC x = true) (hb : b ≠ [])
    (hdb : ∀ x ∈ b, isDigitC x = true) :
    resolve_constraint_diff ('=' :: '=' :: ((a ++ '.' :: b) ++ ',' :: rest)) =
      a ++ '.' :: b := by
  have hshape : ((a ++ '.' :: b) ++ ',' :: rest) = a ++ '.' :: (b ++ ',' :: rest) := by
    simp
  unfold resolve_constraint_diff
  rw [reVer2Search_cons_step _ (reVer2At_cons_nondigit _ (by decide)),
    reVer2Search_cons_step _ (reVer2At_cons_nondigit _ (by decide)), hshape,
    reVer2Search_at (by simp) (reVer2At_two_comma ha hda hb hdb)]

/-- The gen parser on `name ++ "==" ++ v1 ++ ",>=" ++ v2`: the `>=` value
`v2` takes precedence over the `==` value `v1`. -/
theorem parse_gen_mixed_eval {name a b v2 : List Char}
    (hn : name ≠ []) (hname : ∀ c ∈ name, isNameC c = true)
    (hdd : "--".toList.isPrefixOf name = false)
    (_ha : a ≠ []) (hda : ∀ x ∈ a, isDigitC x = true)
    (_hb : b ≠ []) (hdb : ∀ x ∈ b, isDigitC x = true)
    (hv2c : ∀ c ∈ v2, isValC c = true) (hv22 : reVer2At v2 = some (v2, [])) :
    parse_package_line_gen
      (name ++ '=' :: '=' :: ((a ++ '.' :: b) ++ ',' :: '>' :: '=' :: v2)) =
      some (name, v2) := by
  have hv2 : v2 ≠ [] := by
    intro h
    rw [h] at hv22
    simp [reVer2At, spanP] at hv22
  have hv1c : ∀ c ∈ a ++ '.' :: b, isValC c = true :=
    (digitDot_facts (dotted2_digitDot hda hdb)).1
  have hv1 : (a ++ '.' :: b) ≠ [] := by simp
  have hddl : "--".toList.isPrefixOf
      (name ++ '=' :: '=' :: ((a ++ '.' :: b) ++ ',' :: '>' :: '=' :: v2)) = false :=
    ddPrefix_append _ hn hdd (by decide)
  have hcl : reClause ('=' :: '=' :: ((a ++ '.' :: b) ++ ',' :: '>' :: '=' :: v2)) =
      some ('=' :: '=' :: (a ++ '.' :: b), ',' :: '>' :: '=' :: v2) := by
    have h := reClause_ops_val_comma ['=', '='] (a ++ '.' :: b)
      ('>' :: '=' :: v2) (by decide) (by decide) hv1 hv1c
    simpa using h
  rw [parse_gen_std_eval hn hname hddl (by decide) (by decide) (by decide)
    (noSpace_mixed hv1c hv2c) (ne_at_mixed hname hv1c hv2c), hcl]
  dsimp only
  rw [reMoreClauses_comma_clause hv2 hv2c]
  have hres : resolve_constraint_gen
      (('=' :: '=' :: (a ++ '.' :: b)) ++ ',' :: '>' :: '=' :: v2) = v2 :=
    resolve_gen_exact_then_lower hv1c
      (spanP_nospace hv2 fun c hc => noSpace_of_isValC (hv2c c hc)) hv22
  simpa using hres

/-- The diff parser on the same line reports the first numeric value `v1`
instead. -/
theorem parse_diff_mixed_eval {name a b v2 : List Char}
    (hn : name ≠ []) (hname : ∀ c ∈ name, isNameC c = true)
    (ha : a ≠ []) (hda : ∀ x ∈ a, isDigitC x = true)
    (hb : b ≠ []) (hdb : ∀ x ∈ b, isDigitC x = true)
    (hv2c : ∀ c ∈ v2, isValC c = true) (hv22 : reVer2At v2 = some (v2, [])) :
    parse_package_line_diff
      (name ++ '=' :: '=' :: ((a ++ '.' :: b) ++ ',' :: '>' :: '=' :: v2)) =
      some (name, a ++ '.' :: b) := by
  have hv2 : v2 ≠ [] := by
    intro h
    rw [h] at hv22
    simp [reVer2At, spanP] at hv22
  have hv1c : ∀ c ∈ a ++ '.' :: b, isValC c = true :=
    (digitDot_facts (dotted2_digitDot hda hdb)).1
  have hv1 : (a ++ '.' :: b) ≠ [] := by simp
  have hcl : reClause ('=' :: '=' :: ((a ++ '.' :: b) ++ ',' :: '>' :: '=' :: v2)) =
      some ('=' :: '=' :: (a ++ '.' :: b), ',' :: '>' :: '=' :: v2) := by
    have h := reClause_ops_val_comma ['=', '='] (a ++ '.' :: b)
      ('>' :: '=' :: v2) (by decide) (by decide) hv1 hv1c
    simpa using h
  rw [parse_diff_std_eval hn hname (by decide) (by decide) (by decide)
    (noSpace_mixed hv1c hv2c) (ne_at_mixed hname hv1c hv2c), hcl]
  dsimp only
  rw [reMoreClauses_comma_clause hv2 hv2c]
  have hres : resolve_constraint_diff
      ('=' :: '=' :: ((a ++ '.' :: b) ++ ',' :: '>' :: '=' :: v2)) = a ++ '.' :: b :=
    resolve_diff_mixed ha hda hb hdb
  simpa using hres

/-! ## Key uniqueness of the diff scan's change map -/

theorem lookupPkg_cons (k : List Char) (i : ChangeInfo)
    (rest : List (List Char × ChangeInfo)) (n : List Char) :
    lookupPkg ((k, i) :: rest) n = if k = n then some i else lookupPkg rest n := rfl

theorem lookupPkg_eq_none_iff {changes : List (List Char × ChangeInfo)} {n : List Char} :
    lookupPkg changes n = none ↔ n ∉ changes.map Prod.fst := by
  induction changes with
  | nil => simp [lookupPkg]
  | cons e rest ih =>
    obtain ⟨k, i⟩ := e
    rw [lookupPkg_cons]
    by_cases h : k = n
    · subst h
      rw [if_pos rfl]
      simp only [List.map_cons, List.mem_cons, not_or]
      constructor
      · intro hc
        exact absurd hc (by simp)
      · rintro ⟨hne, _⟩
        exact absurd trivial hne
    · rw [if_neg h]
      simp only [List.map_cons, List.mem_cons, not_or, ih]
      constructor
      · exact fun hn => ⟨fun he => h he.symm, hn⟩
      · exact fun hn => hn.2

theorem map_fst_updatePkg (changes : List (List Char × ChangeInfo)) (n : List Char)
    (f : ChangeInfo → ChangeInfo) :
    (updatePkg changes n f).map Prod.fst = changes.map Prod.fst := by
  unfold updatePkg
  rw [List.map_map]
  exact List.map_congr_left (fun e _ => by by_cases h : e.1 = n <;> simp [h])

theorem nodup_ensurePkg {changes : List (List Char × ChangeInfo)} (n : List Char)
    (h : (changes.map Prod.fst).Nodup) :
    ((ensurePkg changes n).map Prod.fst).Nodup := by
  unfold ensurePkg
  by_cases h1 : (lookupPkg changes n).isSome
  · simpa [h1] using h
  · have hn : n ∉ changes.map Prod.fst :=
      lookupPkg_eq_none_iff.mp (Option.not_isSome_iff_eq_none.mp h1)
    simp [h1, List.nodup_append, h, hn]

theorem nodup_setOldVersion {changes : List (List Char × ChangeInfo)}
    (n v : List Char) (cf : Option (List Char)) (h : (changes.map Prod.fst).Nodup) :
    ((setOldVersion changes n v cf).map Prod.fst).Nodup := by
  unfold setOldVersion
  rw [map_fst_updatePkg]
  exact nodup_ensurePkg n h

theorem nodup_setNewVersion {changes : List (List Char × ChangeInfo)}
    (n v : List Char) (cf : Option (List Char)) (h : (changes.map Prod.fst).Nodup) :
    ((setNewVersion changes n v cf).map Prod.fst).Nodup := by
  unfold setNewVersion
  rw [map_fst_updatePkg]
  exact nodup_ensurePkg n h

theorem nodup_processDiffLine {st : DiffState} (line : List Char)
    (h : (st.changes.map Prod.fst).Nodup) :
    (((processDiffLine st line).changes).map Prod.fst).Nodup := by
  unfold processDiffLine
  split_ifs with h1 h2 h3 h4
  · exact h
  · exact h
  · cases hp : parse_package_line_diff (line.drop 1) with
    | none => exact h
    | some r =>
      obtain ⟨pn, v⟩ := r
      dsimp only
      split_ifs with hv
      · exact h
      · exact nodup_setOldVersion pn v st.current_file h
  · cases hp : parse_package_line_diff (line.drop 1) with
    | none => exact h
    | some r =>
      obtain ⟨pn, v⟩ := r
      dsimp only
      split_ifs with hv
      · exact h
      · exact nodup_setNewVersion pn v st.current_file h
  · exact h

theorem nodup_rawChanges (diff : List Char) :
    ((rawChanges diff).map Prod.fst).Nodup := by
  unfold rawChanges
  generalize splitNL diff = lines
  suffices hgen : ∀ st : DiffState, (st.changes.map Prod.fst).Nodup →
      (((lines.foldl processDiffLine st).changes).map Prod.fst).Nodup by
    exact hgen ⟨none, []⟩ (by simp)
  induction lines with
  | nil => exact fun st h => h
  | cons l ls ih => exact fun st h => ih _ (nodup_processDiffLine l h)

theorem lookupPkg_filter_none {changes : List (List Char × ChangeInfo)} {n : List Char}
    (p : List Char × ChangeInfo → Bool) (h : n ∉ changes.map Prod.fst) :
    lookupPkg (changes.filter p) n = none := by
  induction changes with
  | nil => rfl
  | cons e rest ih =>
    obtain ⟨k, i⟩ := e
    simp only [List.map_cons, List.mem_cons, not_or] at h
    by_cases hp : p (k, i) = true
    · simp [List.filter_cons, hp, lookupPkg, Ne.symm h.1, ih h.2]
    · simp [List.filter_cons, hp, ih h.2]

theorem lookupPkg_filter {changes : List (List Char × ChangeInfo)} {n : List Char}
    {info : ChangeInfo} (hnd : (changes.map Prod.fst).Nodup)
    (p : List Char × ChangeInfo → Bool) :
    lookupPkg (changes.filter p) n = some info ↔
      (lookupPkg changes n = some info ∧ p (n, info) = true) := by
  induction changes with
  | nil => simp [lookupPkg]
  | cons e rest ih =>
    obtain ⟨k, i⟩ := e
    simp only [List.map_cons, List.nodup_cons] at hnd
    by_cases hk : k = n
    · subst hk
      by_cases hp : p (k, i) = true
      · rw [List.filter_cons, if_pos hp, lookupPkg_cons, if_pos rfl,
          lookupPkg_cons, if_pos rfl]
        constructor
        · intro h
          cases h
          exact ⟨rfl, hp⟩
        · rintro ⟨h, _⟩
          exact h
      · rw [List.filter_cons, if_neg hp, lookupPkg_cons, if_pos rfl,
          lookupPkg_filter_none p hnd.1]
        constructor
        · intro h
          exact absurd h (by simp)
        · rintro ⟨h, hpb⟩
          cases h
          exact absurd hpb hp
    · by_cases hp : p (k, i) = true
      · rw [List.filter_cons, if_pos hp, lookupPkg_cons, if_neg hk,
          lookupPkg_cons, if_neg hk]
        exact ih hnd.2
      · rw [List.filter_cons, if_neg hp, lookupPkg_cons, if_neg hk]
        exact ih hnd.2

/-! ## Claim theorems: the confirmed claims C3, C5, C7, C8 -/

/-- C3: `extract_changes_from_diff` retains a package's change record if and
only if the record accumulated by the line scan has `old_version ≠
new_version` with at least one of the two present; in particular, for a diff
in which a line is removed and an identical line re-added (no version
change), the package is absent from the returned change set. -/
theorem C3_retained_iff_changed :
    (∀ (diff n : List Char) (info : ChangeInfo),
       lookupPkg (extract_changes_from_diff diff) n = some info ↔
         (lookupPkg (rawChanges diff) n = some info ∧
          info.old_version ≠ info.new_version ∧
          (info.old_version.isSome ∨ info.new_version.isSome))) ∧
    lookupPkg (extract_changes_from_diff "-torch==2.1.0\n+torch==2.1.0".toList)
      "torch".toList = none := by
  constructor
  · intro diff n info
    unfold extract_changes_from_diff
    rw [lookupPkg_filter (nodup_rawChanges diff) keepChange]
    unfold keepChange
    simp
  · decide

/-- C5: both ticket-drafting sites classify a change record into exactly one
of three kinds: `NEW`/`addition` when the old version is absent,
`REMOVE`/`removal` when the new version is absent (old present), and
`UPDATE`/`update` otherwise; in particular `old = none`, `new` present is
classified `NEW`. -/
theorem C5_classification :
    (∀ v : List Char, generate_ticket_change_type none (some v) = "addition".toList ∧
        preview_change_type none (some v) = "NEW".toList) ∧
    (∀ u : List Char, generate_ticket_change_type (some u) none = "removal".toList ∧
        preview_change_type (some u) none = "REMOVE".toList) ∧
    (∀ u v : List Char, generate_ticket_change_type (some u) (some v) = "update".toList ∧
        preview_change_type (some u) (some v) = "UPDATE".toList) ∧
    (∀ o n : Option (List Char),
        preview_change_type o n = "NEW".toList ∨
        preview_change_type o n = "REMOVE".toList ∨
        preview_change_type o n = "UPDATE".toList) := by
  refine ⟨fun v => ⟨?_, ?_⟩, fun u => ⟨?_, ?_⟩, fun u v => ⟨?_, ?_⟩, fun o n => ?_⟩
  · simp [generate_ticket_change_type]
  · simp [preview_change_type]
  · simp [generate_ticket_change_type]
  · simp [preview_change_type]
  · simp [generate_ticket_change_type]
  · simp [preview_change_type]
  · unfold preview_change_type
    split_ifs <;> simp

/-- C7: the component catalogue produced by `extract_all_versions` has one
entry per slot 16 through 43, its slot ordinals are unique, and the
formatter's sort by slot ordinal reproduces the catalogue order — all of
this for every possible combination of extractor outcomes (success, `None`
return, or raised exception). -/
theorem C7_slot_order (o : RepoExtractionOutcomes) :
    (extract_all_versions o).map Prod.fst =
      [16, 17, 18, 19, 20, 21, 22, 23, 24, 25, 26, 27, 28, 29, 30, 31, 32,
       33, 34, 35, 36, 37, 38, 39, 40, 41, 42, 43] ∧
    ((extract_all_versions o).map Prod.fst).Nodup ∧
    format_output_sorted (extract_all_versions o) = extract_all_versions o := by
  have hm : (extract_all_versions o).map Prod.fst =
      [16, 17, 18, 19, 20, 21, 22, 23, 24, 25, 26, 27, 28, 29, 30, 31, 32,
       33, 34, 35, 36, 37, 38, 39, 40, 41, 42, 43] := rfl
  refine ⟨hm, ?_, ?_⟩
  · rw [hm]
    decide
  · apply pairwise_slot_sorted_eq
    have hp : ((extract_all_versions o).map Prod.fst).Pairwise (fun a b => a ≤ b) := by
      rw [hm]
      decide
    exact List.pairwise_map.mp hp

/-- C8: `safe_extract` is total over every possible outcome of the wrapped
extraction call — it returns the extractor's value when that value is not
`None`, and the caller-supplied fallback both when the extractor returns
`None` and when it raises any exception; an exception is never propagated. -/
theorem C8_safe_extract_total {α : Type} (d a : α) (e : PyExc) :
    safe_extract (Except.error e) d = d ∧
    safe_extract (Except.ok none) d = d ∧
    safe_extract (Except.ok (some a)) d = a :=
  ⟨rfl, rfl, rfl⟩

/-! ## Claim theorems: the corrected claims C1, C2, C4, C6, C9, C10 -/

/-- C1 counterexample: on the upper-bound-only line `foo<2.0`,
`parse_diff.py`'s `parse_package_line` returns the bare number `2.0`, not
the verbatim constraint text `<2.0` that the claim requires of the Line
Parser. -/
theorem C1_counterexample :
    parse_package_line_diff "foo<2.0".toList = some ("foo".toList, "2.0".toList) ∧
    some (("foo".toList : List Char), ("2.0".toList : List Char)) ≠
      some ("foo".toList, "<2.0".toList) :=
  ⟨by decide, by decide⟩

/-- C1 (amended): for a constrained-form line `name ++ op ++ v` whose single
clause is an upper bound (`<` or `<=`) over a digits-and-dots value,
`generate_component_versions.py`'s `parse_package_line` returns the package
name paired with the entire constraint text verbatim.  (`parse_diff.py`'s
copy instead extracts the bare number: see the counterexample.) -/
theorem C1_upper_bound_verbatim (name op v : List Char)
    (hn : name ≠ []) (hname : ∀ c ∈ name, isNameC c = true)
    (hdd : "--".toList.isPrefixOf name = false)
    (hop : op = ['<'] ∨ op = ['<', '='])
    (hv : v ≠ []) (hdv : ∀ c ∈ v, isDigitDotC c = true) :
    parse_package_line_gen (name ++ op ++ v) = some (name, op ++ v) := by
  rcases hop with rfl | rfl
  · simpa using parse_gen_upper_lt_eval hn hname hdd hv hdv
  · simpa using parse_gen_upper_le_eval hn hname hdd hv hdv

theorem C1_witness :
    parse_package_line_gen ("aiohttp".toList ++ ['<'] ++ "4.0".toList) =
      some ("aiohttp".toList, ['<'] ++ "4.0".toList) :=
  C1_upper_bound_verbatim "aiohttp".toList ['<'] "4.0".toList (by decide) (by decide)
    (by decide) (Or.inl rfl) (by decide) (by decide)

set_option maxHeartbeats 1000000 in
/-- C2 counterexample: on a URL-pinned line with a 40-hex commit hash after
`@`, `parse_diff.py`'s `parse_package_line` has no hash handling and
returns `unknown`, not the first 8 characters of the hash. -/
theorem C2_counterexample :
    parse_package_line_diff
      "pkg @ https://example.com/repo.git@0123456789abcdef0123456789abcdef01234567".toList =
      some ("pkg".toList, "unknown".toList) ∧
    some (("pkg".toList : List Char), ("unknown".toList : List Char)) ≠
      some ("pkg".toList, "01234567".toList) :=
  ⟨by decide, by decide⟩

/-- C2 (amended): whenever the stripped line passes the guards, contains
both `@` and `http`, its name regex matches, and the commit-hash search
finds a 40-hex group, `generate_component_versions.py`'s
`parse_package_line` returns the name paired with exactly the first 8
characters of that hash. -/
theorem C2_commit_hash_short (line l name h40 : List Char)
    (hl : stripC line = l)
    (hguard : (l.isEmpty || decide (l.head? = some '#') ||
      "--".toList.isPrefixOf l) = false)
    (hurl : (l.elem '@' && containsStr "http".toList l) = true)
    (hname : reNameAtMatch l = some name)
    (hhex : reHex40Search l = some h40) :
    parse_package_line_gen line = some (name, h40.take 8) := by
  unfold parse_package_line_gen
  rw [hl]
  simp at hguard hurl
  simp [hguard, hurl, hname, hhex]

set_option maxHeartbeats 1000000 in
theorem C2_witness :
    parse_package_line_gen
      "pkg @ https://example.com/repo.git@0123456789abcdef0123456789abcdef01234567".toList =
      some ("pkg".toList, "01234567".toList) := by
  have h := C2_commit_hash_short
    "pkg @ https://example.com/repo.git@0123456789abcdef0123456789abcdef01234567".toList
    "pkg @ https://example.com/repo.git@0123456789abcdef0123456789abcdef01234567".toList
    "pkg".toList "0123456789abcdef0123456789abcdef01234567".toList
    (by decide) (by decide) (by decide) (by decide) (by decide)
  rw [h]
  decide

/-- C4 counterexample: `parse_diff.py`'s `parse_package_line` has no `--`
check, so a bare pip option line yields a declaration instead of none. -/
theorem C4_counterexample :
    parse_package_line_diff "--extra-index-url https://pypi.org/simple".toList =
      some ("--extra-index-url".toList, "latest".toList) ∧
    parse_package_line_diff "--extra-index-url https://pypi.org/simple".toList ≠
      none :=
  ⟨by decide, by decide⟩

/-- C4 (amended): blank and comment lines yield no declaration in both
implementations; a `--`-prefixed pip option line yields no declaration in
`generate_component_versions.py`'s `parse_package_line` (but not in
`parse_diff.py`'s: see the counterexample). -/
theorem C4_reject_blank_comment_option (line : List Char) :
    (stripC line = [] ∨ (stripC line).head? = some '#' →
      parse_package_line_diff line = none ∧ parse_package_line_gen line = none) ∧
    ("--".toList.isPrefixOf (stripC line) = true → parse_package_line_gen line = none) := by
  constructor
  · intro h
    constructor
    · unfold parse_package_line_diff
      rcases h with h | h
      · simp [h]
      · simp [h]
    · unfold parse_package_line_gen
      rcases h with h | h
      · simp [h]
      · simp [h]
  · intro h
    unfold parse_package_line_gen
    simp at h
    simp [h]

theorem C4_witness :
    parse_package_line_diff "   ".toList = none ∧
    parse_package_line_gen "# torch pin".toList = none ∧
    parse_package_line_gen "--no-build-isolation".toList = none :=
  ⟨((C4_reject_blank_comment_option "   ".toList).1 (Or.inl (by decide))).1,
   ((C4_reject_blank_comment_option "# torch pin".toList).1 (Or.inr (by decide))).2,
   (C4_reject_blank_comment_option "--no-build-isolation".toList).2 (by decide)⟩

/-- C6 counterexample: on `pkg==1.0,>=2.0`, `parse_diff.py`'s
`parse_package_line` reports the first numeric value `1.0` — the `==`
value — so the lower-bound value `2.0` does not take precedence in that
implementation. -/
theorem C6_counterexample :
    parse_package_line_diff "pkg==1.0,>=2.0".toList = some ("pkg".toList, "1.0".toList) ∧
    some (("pkg".toList : List Char), ("1.0".toList : List Char)) ≠
      some ("pkg".toList, "2.0".toList) :=
  ⟨by decide, by decide⟩

/-- C6 (amended): for every line `name>=X.Y.Z` with nonempty digit groups,
both implementations return `(name, "X.Y.Z")`; the `>=`-over-`==`
precedence holds in `generate_component_versions.py`'s implementation —
on `name==v1,>=v2` it reports `v2` — while `parse_diff.py`'s reports the
first numeric value instead (see the counterexample). -/
theorem C6_lower_bound_precedence :
    (∀ name a b c : List Char, name ≠ [] → (∀ x ∈ name, isNameC x = true) →
      "--".toList.isPrefixOf name = false →
      a ≠ [] → (∀ x ∈ a, isDigitC x = true) →
      b ≠ [] → (∀ x ∈ b, isDigitC x = true) →
      c ≠ [] → (∀ x ∈ c, isDigitC x = true) →
      parse_package_line_gen (name ++ '>' :: '=' :: (a ++ '.' :: (b ++ '.' :: c))) =
        some (name, a ++ '.' :: (b ++ '.' :: c)) ∧
      parse_package_line_diff (name ++ '>' :: '=' :: (a ++ '.' :: (b ++ '.' :: c))) =
        some (name, a ++ '.' :: (b ++ '.' :: c))) ∧
    (∀ name a1 b1 v2 : List Char, name ≠ [] → (∀ x ∈ name, isNameC x = true) →
      "--".toList.isPrefixOf name = false →
      a1 ≠ [] → (∀ x ∈ a1, isDigitC x = true) →
      b1 ≠ [] → (∀ x ∈ b1, isDigitC x = true) →
      (∀ x ∈ v2, isValC x = true) → reVer2At v2 = some (v2, []) →
      parse_package_line_gen
        (name ++ '=' :: '=' :: ((a1 ++ '.' :: b1) ++ ',' :: '>' :: '=' :: v2)) =
        some (name, v2)) := by
  constructor
  · intro name a b c hn hname hdd ha hda hb hdb hc hdc
    have hvc := (digitDot_facts (dotted3_digitDot hda hdb hdc)).1
    exact parse_ge_eval hn hname hdd hvc (reVer2At_three ha hda hb hdb hc hdc)
  · intro name a1 b1 v2 hn hname hdd ha hda hb hdb hv2c hv22
    exact parse_gen_mixed_eval hn hname hdd ha hda hb hdb hv2c hv22

theorem C6_witness :
    parse_package_line_gen
      ("torch".toList ++ '>' :: '=' :: ("2".toList ++ '.' :: ("1".toList ++ '.' :: "0".toList))) =
      some ("torch".toList, "2".toList ++ '.' :: ("1".toList ++ '.' :: "0".toList)) ∧
    parse_package_line_gen
      ("pkg".toList ++ '=' :: '=' :: (("1".toList ++ '.' :: "0".toList) ++ ',' :: '>' :: '=' :: "2.0".toList)) =
      some ("pkg".toList, "2.0".toList) :=
  ⟨(C6_lower_bound_precedence.1 "torch".toList "2".toList "1".toList "0".toList
      (by decide) (by decide) (by decide) (by decide) (by decide) (by decide)
      (by decide) (by decide) (by decide)).1,
   C6_lower_bound_precedence.2 "pkg".toList "1".toList "0".toList "2.0".toList
      (by decide) (by decide) (by decide) (by decide) (by decide) (by decide)
      (by decide) (by decide) (by decide)⟩

/-- C9 counterexample: the constrained line `pkg` (no constraint) is mapped
to `(pkg, latest)`, and re-parsing `pkg==latest` yields `(pkg, ==latest)`,
not `(pkg, latest)` — the reported token is not idempotent in general. -/
theorem C9_counterexample :
    parse_package_line_gen "pkg".toList = some ("pkg".toList, "latest".toList) ∧
    parse_package_line_gen "pkg==latest".toList = some ("pkg".toList, "==latest".toList) ∧
    some (("pkg".toList : List Char), ("==latest".toList : List Char)) ≠
      some ("pkg".toList, "latest".toList) :=
  ⟨by decide, by decide, by decide⟩

/-- C9 (amended): re-parsing is idempotent for reported version tokens that
wholly match the numeric version pattern: if `version` consists of
constraint-value characters and the numeric pattern matches all of it
(`reVer2At version = some (version, [])`), then both implementations map
`name ++ "==" ++ version` to `(name, version)` again.  (For non-numeric
reported tokens such as `latest` or verbatim constraint text the claim
fails: see the counterexample.) -/
theorem C9_idempotent_numeric (name version : List Char)
    (hn : name ≠ []) (hname : ∀ c ∈ name, isNameC c = true)
    (hdd : "--".toList.isPrefixOf name = false)
    (hvc : ∀ c ∈ version, isValC c = true)
    (hv2 : reVer2At version = some (version, [])) :
    parse_package_line_gen (name ++ '=' :: '=' :: version) = some (name, version) ∧
    parse_package_line_diff (name ++ '=' :: '=' :: version) = some (name, version) :=
  parse_eq_eval hn hname hdd hvc hv2

theorem C9_witness :
    parse_package_line_gen ("pkg".toList ++ '=' :: '=' :: "1.2.3+cu118".toList) =
      some ("pkg".toList, "1.2.3+cu118".toList) :=
  (C9_idempotent_numeric "pkg".toList "1.2.3+cu118".toList (by decide) (by decide)
    (by decide) (by decide) (by decide)).1

/-- C10 counterexample: the two implementations disagree on the pip option
line `--pre`: `parse_diff.py`'s returns `(--pre, latest)` while
`generate_component_versions.py`'s returns none. -/
theorem C10_counterexample :
    parse_package_line_diff "--pre".toList = some ("--pre".toList, "latest".toList) ∧
    parse_package_line_gen "--pre".toList = none ∧
    parse_package_line_diff "--pre".toList ≠ parse_package_line_gen "--pre".toList :=
  ⟨by decide, by decide, by decide⟩

/-- C10 (amended): the two implementations agree on blank lines, comment
lines, and constrained lines `name op v` with `op ∈ {>=, ==}` and `v` a
token wholly matching the numeric version pattern; they do not agree on
every input line (see the counterexample). -/
theorem C10_agreement :
    (∀ line : List Char, stripC line = [] ∨ (stripC line).head? = some '#' →
      parse_package_line_diff line = parse_package_line_gen line) ∧
    (∀ name v : List Char, name ≠ [] → (∀ c ∈ name, isNameC c = true) →
      "--".toList.isPrefixOf name = false →
      (∀ c ∈ v, isValC c = true) → reVer2At v = some (v, []) →
      parse_package_line_diff (name ++ '>' :: '=' :: v) =
        parse_package_line_gen (name ++ '>' :: '=' :: v) ∧
      parse_package_line_diff (name ++ '=' :: '=' :: v) =
        parse_package_line_gen (name ++ '=' :: '=' :: v)) := by
  constructor
  · intro line h
    rcases h with h | h
    · unfold parse_package_line_diff parse_package_line_gen
      simp [h]
    · unfold parse_package_line_diff parse_package_line_gen
      simp [h]
  · intro name v hn hname hdd hvc hv2
    constructor
    · rw [(parse_ge_eval hn hname hdd hvc hv2).2, (parse_ge_eval hn hname hdd hvc hv2).1]
    · rw [(parse_eq_eval hn hname hdd hvc hv2).2, (parse_eq_eval hn hname hdd hvc hv2).1]

theorem C10_witness :
    parse_package_line_diff ("numpy".toList ++ '>' :: '=' :: "1.24".toList) =
      parse_package_line_gen ("numpy".toList ++ '>' :: '=' :: "1.24".toList) :=
  (C10_agreement.2 "numpy".toList "1.24".toList (by decide) (by decide) (by decide)
    (by decide) (by decide)).1

end Autofiler
